import Mathlib

/-!
Verification of the scope_timer call-tree profiler core.

Shallow embedding of the per-thread tree-building engine from
src/include/scope_timer_internal.hpp (namespace scope_timer::detail):
the Timer record, the Thread state (active stack, finished buffer,
index counter, last_log), the Process configuration, and the operations
enter_stack_frame, exit_stack_frame, maybe_flush, drain_finished, the
Thread constructor and destructor, and the ScopeTimer RAII guard.

Machine integers: the C++ code uses size_t and uint64_t nanosecond
counts; all arithmetic here is far below 2 to the 64, so they are
modelled as Nat.

Clocks: wall_now and cpu_now are external collaborators.  They are
modelled as functions wall cpu : Nat -> Nat of a global read counter
(the ticks field): the k-th fenced timestamp capture of the thread
reads wall k and cpu k.  Monotonicity of the clock is a hypothesis of
the theorems that need it.

Callbacks: CallbackType has three hooks, thread_start, thread_in_situ
and thread_stop.  The hooks receive the Thread itself; the consumer
contract (spec section 4.5, and the older variant
cpu_timer_internal.hpp Stack::flush_with_locks, which passes the
drained finished buffer directly) is that a batch delivery empties the
finished collection.  The model therefore records, as the observable
effect of each hook invocation, the batch of frames drained at that
moment, in an events log.
-/

namespace scope_timer

/-- One stack-frame record: class Timer of scope_timer_internal.hpp.
The fields process_start, source_loc and the opaque info payload are
carried by the code but never read by the tree-building engine; the
name field stands in for the identifying data.  Timestamps are raw
clock values; zero means not yet set. -/
structure Timer where
  name : String
  index : Nat
  caller_index : Nat
  prev_index : Nat
  start_wall : Nat
  start_cpu : Nat
  stop_wall : Nat
  stop_cpu : Nat
  youngest_child_index : Nat
  deriving DecidableEq

/-- A freshly constructed Timer, as built by the Timer constructor:
all four timestamps zero and youngest_child_index zero. -/
def Timer.fresh (name : String) (index caller_index prev_index : Nat) : Timer :=
  ⟨name, index, caller_index, prev_index, 0, 0, 0, 0, 0⟩

/-- Timer::start_timers.  Asserts start_cpu == 0 (message: timer
already started), then captures start_wall and start_cpu inside a
fence pair.  Assertion failure is modelled as none.  The capture
consumes one clock tick k. -/
def Timer.start_timers (wall cpu : Nat → Nat) (k : Nat) (t : Timer) : Option Timer :=
  if t.start_cpu ≠ 0 then none
  else some { t with start_wall := wall k, start_cpu := cpu k }

/-- Timer::stop_timers.  Asserts stop_cpu == 0 (double stop), captures
stop_wall and stop_cpu inside a fence pair, then asserts
start_cpu != 0 (message: timer never started). -/
def Timer.stop_timers (wall cpu : Nat → Nat) (k : Nat) (t : Timer) : Option Timer :=
  if t.stop_cpu ≠ 0 then none
  else if t.start_cpu = 0 then none
  else some { t with stop_wall := wall k, stop_cpu := cpu k }

/-- The three hooks of CallbackType, recorded with the batch drained
from the finished buffer at the moment of the invocation. -/
inductive CallbackEvent where
  | thread_start : CallbackEvent
  | thread_in_situ : List Timer → CallbackEvent
  | thread_stop : List Timer → CallbackEvent
  deriving DecidableEq

/-- The per-thread state of class Thread: the active stack (head of
the list is the code's stack.back(), i.e. the top), the finished
buffer (completion order, appended at the tail), the monotonic index
counter, last_log, the clock-read counter, and the log of callback
invocations. -/
structure ThreadState where
  stack : List Timer
  finished : List Timer
  index : Nat
  last_log : Nat
  ticks : Nat
  events : List CallbackEvent
  deriving DecidableEq

/-- The process-wide configuration read by a Thread: the enablement
flag and callback_period (0 = never, 1 = every frame, otherwise the
periodic threshold).  The Thread reads these fields of the live
Process object on every use (Thread::get_callback_period and
Thread::get_callback dereference process directly). -/
structure Process where
  enabled : Bool
  callback_period : Nat
  deriving DecidableEq

/-- Thread::enter_stack_frame.  Allocates this_index = index++ ; if the
stack is non-empty the caller is stack.back(): caller_index is its
index, prev_index is its youngest_child_index, which is then updated
to this_index; the new Timer is pushed and start_timers runs as the
very last step. -/
def enter_stack_frame (wall cpu : Nat → Nat) (name : String) (s : ThreadState) :
    Option ThreadState :=
  match s.stack with
  | [] =>
    (Timer.start_timers wall cpu s.ticks (Timer.fresh name s.index 0 0)).map fun t =>
      { s with stack := [t], index := s.index + 1, ticks := s.ticks + 1 }
  | caller :: rest =>
    (Timer.start_timers wall cpu s.ticks
        (Timer.fresh name s.index caller.index caller.youngest_child_index)).map fun t =>
      { s with
        stack := t :: { caller with youngest_child_index := s.index } :: rest,
        index := s.index + 1,
        ticks := s.ticks + 1 }

/-- Thread::maybe_flush.  If the finished buffer is non-empty, reads
now = finished.back().get_stop_cpu() and the live callback_period; the
hook thread_in_situ fires iff the period is non-zero and either equals
one or now is strictly greater than last_log + period.  The code never
writes last_log after construction, so no update happens here.  The
observable effect of the hook is the drained finished batch (see the
file header). -/
def maybe_flush (proc : Process) (s : ThreadState) : ThreadState :=
  match s.finished.getLast? with
  | none => s
  | some t =>
    if proc.callback_period ≠ 0 ∧
        (proc.callback_period = 1 ∨ s.last_log + proc.callback_period < t.stop_cpu) then
      { s with finished := [],
               events := s.events ++ [CallbackEvent.thread_in_situ s.finished] }
    else s

/-- Thread::exit_stack_frame.  Asserts the stack is non-empty, stops
the top timer as the (almost) very first step, moves the frame to the
back of the finished buffer, pops the stack, and evaluates the flush
policy. -/
def exit_stack_frame (wall cpu : Nat → Nat) (proc : Process) (s : ThreadState) :
    Option ThreadState :=
  match s.stack with
  | [] => none
  | top :: rest =>
    (Timer.stop_timers wall cpu s.ticks top).map fun t =>
      maybe_flush proc
        { s with stack := rest, finished := s.finished ++ [t], ticks := s.ticks + 1 }

/-- Thread::drain_finished: swap the finished buffer with an empty one
and return the removed frames. -/
def drain_finished (s : ThreadState) : List Timer × ThreadState :=
  (s.finished, { s with finished := [] })

/-- The empty thread state prior to the constructor body. -/
def ThreadState.init : ThreadState :=
  { stack := [], finished := [], index := 0, last_log := 0, ticks := 0, events := [] }

/-- The Thread constructor: enters the synthetic root frame (empty
name) and invokes the thread_start hook. -/
def thread_create (wall cpu : Nat → Nat) : Option ThreadState :=
  (enter_stack_frame wall cpu "" ThreadState.init).map fun s =>
    { s with events := s.events ++ [CallbackEvent.thread_start] }

/-- The Thread destructor: exits the root frame (which runs
maybe_flush one last time), asserts the stack is now empty, and
invokes the thread_stop hook; the hook receives the remaining finished
frames (drained, see the file header). -/
def thread_destroy (wall cpu : Nat → Nat) (proc : Process) (s : ThreadState) :
    Option ThreadState :=
  (exit_stack_frame wall cpu proc s).bind fun s1 =>
    if s1.stack = [] then
      some { s1 with
               finished := [],
               events := s1.events ++ [CallbackEvent.thread_stop s1.finished] }
    else none

/-- The RAII guard, class ScopeTimer: it stores the enablement flag
captured from the live Process at construction. -/
structure ScopeTimer where
  enabled : Bool
  deriving DecidableEq

/-- ScopeTimer constructor: captures process->is_enabled() and, when
enabled, enters a stack frame. -/
def scope_timer_create (wall cpu : Nat → Nat) (proc : Process) (name : String)
    (s : ThreadState) : Option (ScopeTimer × ThreadState) :=
  if proc.enabled then
    (enter_stack_frame wall cpu name s).map fun s1 => (⟨true⟩, s1)
  else some (⟨false⟩, s)

/-- ScopeTimer destructor: consults the captured flag, not the live
Process, and exits the frame only when the guard was enabled. -/
def scope_timer_destroy (wall cpu : Nat → Nat) (proc : Process) (g : ScopeTimer)
    (s : ThreadState) : Option ThreadState :=
  if g.enabled then exit_stack_frame wall cpu proc s else some s

/-- Client operations on one thread: entering a scope, exiting the
current scope, and the Process configuration call set_callback_period
(which may happen at any time from any thread). -/
inductive Op where
  | enter : String → Op
  | exitScope : Op
  | set_period : Nat → Op
  deriving DecidableEq

/-- One client operation, acting on the live Process and the thread. -/
def stepOp (wall cpu : Nat → Nat) : Op → Process × ThreadState →
    Option (Process × ThreadState)
  | Op.enter n, (p, s) => (enter_stack_frame wall cpu n s).map fun s1 => (p, s1)
  | Op.exitScope, (p, s) => (exit_stack_frame wall cpu p s).map fun s1 => (p, s1)
  | Op.set_period q, (p, s) => some ({ p with callback_period := q }, s)

/-- A sequence of client operations. -/
def runOps (wall cpu : Nat → Nat) : List Op → Process × ThreadState →
    Option (Process × ThreadState)
  | [], ps => some ps
  | o :: rest, ps => (stepOp wall cpu o ps).bind (runOps wall cpu rest)

/-- A whole thread lifetime: construction, client operations, then the
destructor. -/
def runThread (wall cpu : Nat → Nat) (p : Process) (ops : List Op) :
    Option (Process × ThreadState) :=
  (thread_create wall cpu).bind fun s0 =>
  (runOps wall cpu ops (p, s0)).bind fun ps =>
  (thread_destroy wall cpu ps.1 ps.2).map fun s2 => (ps.1, s2)

/-- Proper nesting of client operations relative to the frames opened
so far: an exit may only close a frame opened by a client enter, never
the root. -/
def nestedFrom : Nat → List Op → Bool
  | _, [] => true
  | d, Op.enter _ :: rest => nestedFrom (d + 1) rest
  | d, Op.exitScope :: rest =>
    match d with
    | 0 => false
    | e + 1 => nestedFrom e rest
  | d, Op.set_period _ :: rest => nestedFrom d rest

/-- Net client frame depth after a sequence of operations. -/
def depthAfter : Nat → List Op → Nat
  | d, [] => d
  | d, Op.enter _ :: rest => depthAfter (d + 1) rest
  | d, Op.exitScope :: rest => depthAfter (d - 1) rest
  | d, Op.set_period _ :: rest => depthAfter d rest

/-- Number of enter operations in a client sequence. -/
def countEnter : List Op → Nat
  | [] => 0
  | Op.enter _ :: rest => countEnter rest + 1
  | Op.exitScope :: rest => countEnter rest
  | Op.set_period _ :: rest => countEnter rest

/-! ## Derived observers of the thread state -/

/-- The batches handed to the consumer, in delivery order: every
thread_in_situ batch followed, chronologically, by the thread_stop
batch. -/
def ThreadState.deliveredBatches (s : ThreadState) : List (List Timer) :=
  s.events.filterMap fun e =>
    match e with
    | CallbackEvent.thread_in_situ b => some b
    | CallbackEvent.thread_stop b => some b
    | CallbackEvent.thread_start => none

/-- All frames delivered to the consumer so far, in delivery order
(which is completion order). -/
def ThreadState.delivered (s : ThreadState) : List Timer :=
  s.deliveredBatches.flatten

/-- All completed frames, in completion order: those already delivered
followed by those still sitting in the finished buffer. -/
def ThreadState.completed (s : ThreadState) : List Timer :=
  s.delivered ++ s.finished

/-- Every frame the thread has ever created: completed frames plus the
still-active stack. -/
def ThreadState.allFrames (s : ThreadState) : List Timer :=
  s.completed ++ s.stack

/-- How often the thread_stop hook has been invoked. -/
def ThreadState.stopCount (s : ThreadState) : Nat :=
  (s.events.filter fun e =>
    match e with
    | CallbackEvent.thread_stop _ => true
    | _ => false).length

/-- How often the thread_in_situ hook has been invoked. -/
def ThreadState.inSituCount (s : ThreadState) : Nat :=
  (s.events.filter fun e =>
    match e with
    | CallbackEvent.thread_in_situ _ => true
    | _ => false).length

/-! ## Index-based lookup and the sibling chain -/

/-- Find the frame with a given index among a collection of frames. -/
def lookupFrame (l : List Timer) (i : Nat) : Option Timer :=
  l.find? fun t => t.index == i

/-- prev_index of the frame with index i (0 when absent). -/
def prevOf (l : List Timer) (i : Nat) : Nat :=
  match lookupFrame l i with
  | some t => t.prev_index
  | none => 0

/-- Whether index j is a child of the frame with index p: j carries a
frame whose caller_index is p, and j is not the synthetic root (whose
caller_index 0 is a self-referential sentinel, not a tree edge). -/
def isChildOf (l : List Timer) (p j : Nat) : Bool :=
  match lookupFrame l j with
  | some t => j != 0 && t.caller_index == p
  | none => false

/-- Follow prev_index links starting from index c, stopping at 0; fuel
bounds the walk (prev_index strictly decreases, so any fuel at least c
is enough). -/
def chainTo (l : List Timer) : Nat → Nat → List Nat
  | 0, _ => []
  | _ + 1, 0 => []
  | fuel + 1, j + 1 => (j + 1) :: chainTo l fuel (prevOf l (j + 1))

/-- The children of the frame with index p among indices below n, in
decreasing index order (youngest first). -/
def childrenDesc (l : List Timer) (n p : Nat) : List Nat :=
  ((List.range n).filter fun j => isChildOf l p j).reverse

/-! ## Elementary computation lemmas about the operations -/

theorem start_timers_fresh (wall cpu : Nat → Nat) (k : Nat) (name : String)
    (i c p : Nat) :
    Timer.start_timers wall cpu k (Timer.fresh name i c p) =
      some ⟨name, i, c, p, wall k, cpu k, 0, 0, 0⟩ := by
  simp [Timer.start_timers, Timer.fresh]

theorem stop_timers_active (wall cpu : Nat → Nat) (k : Nat) (t : Timer)
    (h1 : t.stop_cpu = 0) (h2 : t.start_cpu ≠ 0) :
    Timer.stop_timers wall cpu k t =
      some { t with stop_wall := wall k, stop_cpu := cpu k } := by
  simp [Timer.stop_timers, h1, h2]

theorem enter_eq_nil (wall cpu : Nat → Nat) (name : String) (s : ThreadState)
    (h : s.stack = []) :
    enter_stack_frame wall cpu name s =
      some { s with
               stack := [⟨name, s.index, 0, 0, wall s.ticks, cpu s.ticks, 0, 0, 0⟩],
               index := s.index + 1,
               ticks := s.ticks + 1 } := by
  rw [enter_stack_frame, h]
  rw [start_timers_fresh]
  rfl

theorem enter_eq_cons (wall cpu : Nat → Nat) (name : String) (s : ThreadState)
    (caller : Timer) (rest : List Timer) (h : s.stack = caller :: rest) :
    enter_stack_frame wall cpu name s =
      some { s with
               stack :=
                 ⟨name, s.index, caller.index, caller.youngest_child_index,
                   wall s.ticks, cpu s.ticks, 0, 0, 0⟩ ::
                   { caller with youngest_child_index := s.index } :: rest,
               index := s.index + 1,
               ticks := s.ticks + 1 } := by
  rw [enter_stack_frame, h]
  rw [start_timers_fresh]
  rfl

theorem exit_eq_cons (wall cpu : Nat → Nat) (proc : Process) (s : ThreadState)
    (top : Timer) (rest : List Timer) (h : s.stack = top :: rest)
    (h1 : top.stop_cpu = 0) (h2 : top.start_cpu ≠ 0) :
    exit_stack_frame wall cpu proc s =
      some (maybe_flush proc
        { s with
            stack := rest,
            finished := s.finished ++ [{ top with stop_wall := wall s.ticks,
                                                  stop_cpu := cpu s.ticks }],
            ticks := s.ticks + 1 }) := by
  rw [exit_stack_frame, h]
  dsimp only
  rw [stop_timers_active wall cpu s.ticks top h1 h2]
  rfl

theorem maybe_flush_stack (proc : Process) (s : ThreadState) :
    (maybe_flush proc s).stack = s.stack := by
  rw [maybe_flush]
  rcases s.finished.getLast? with _ | t
  · rfl
  · dsimp only
    split <;> rfl

theorem maybe_flush_index (proc : Process) (s : ThreadState) :
    (maybe_flush proc s).index = s.index := by
  rw [maybe_flush]
  rcases s.finished.getLast? with _ | t
  · rfl
  · dsimp only
    split <;> rfl

theorem maybe_flush_ticks (proc : Process) (s : ThreadState) :
    (maybe_flush proc s).ticks = s.ticks := by
  rw [maybe_flush]
  rcases s.finished.getLast? with _ | t
  · rfl
  · dsimp only
    split <;> rfl

theorem maybe_flush_last_log (proc : Process) (s : ThreadState) :
    (maybe_flush proc s).last_log = s.last_log := by
  rw [maybe_flush]
  rcases s.finished.getLast? with _ | t
  · rfl
  · dsimp only
    split <;> rfl

theorem deliveredBatches_append_in_situ (ev : List CallbackEvent) (b : List Timer) :
    ThreadState.deliveredBatches ⟨[], [], 0, 0, 0, ev ++ [CallbackEvent.thread_in_situ b]⟩ =
      ThreadState.deliveredBatches ⟨[], [], 0, 0, 0, ev⟩ ++ [b] := by
  simp [ThreadState.deliveredBatches]

theorem maybe_flush_completed (proc : Process) (s : ThreadState) :
    (maybe_flush proc s).completed = s.completed := by
  rw [maybe_flush]
  rcases hl : s.finished.getLast? with _ | t
  · rfl
  · dsimp only
    split
    · simp [ThreadState.completed, ThreadState.delivered, ThreadState.deliveredBatches]
    · rfl

theorem maybe_flush_stopCount (proc : Process) (s : ThreadState) :
    (maybe_flush proc s).stopCount = s.stopCount := by
  rw [maybe_flush]
  rcases s.finished.getLast? with _ | t
  · rfl
  · dsimp only
    split
    · simp [ThreadState.stopCount]
    · rfl

theorem maybe_flush_allFrames (proc : Process) (s : ThreadState) :
    (maybe_flush proc s).allFrames = s.allFrames := by
  rw [ThreadState.allFrames, ThreadState.allFrames, maybe_flush_completed,
    maybe_flush_stack]

/-! ## Claim C2: tree linkage established by enter -/

/-- C2: when the active list is non-empty, the frame created by
enter_stack_frame has caller_index equal to the index of the top of
the active list, prev_index equal to that caller's
youngest_child_index from just before the enter, and the caller's
youngest_child_index is updated to the new frame's index; the
synthetic root frame entered on the empty active list has
caller_index = index = 0. -/
theorem claim_C2 (wall cpu : Nat → Nat) (name : String) (s : ThreadState) :
    (∀ caller rest, s.stack = caller :: rest →
      ∃ fr : Timer,
        enter_stack_frame wall cpu name s =
          some { s with
                   stack := fr :: { caller with youngest_child_index := s.index } :: rest,
                   index := s.index + 1,
                   ticks := s.ticks + 1 } ∧
        fr.index = s.index ∧
        fr.caller_index = caller.index ∧
        fr.prev_index = caller.youngest_child_index) ∧
    (∀ s0, thread_create wall cpu = some s0 →
      ∃ rt : Timer, s0.stack = [rt] ∧ rt.index = 0 ∧ rt.caller_index = 0 ∧
        rt.prev_index = 0) := by
  constructor
  · intro caller rest h
    exact ⟨_, enter_eq_cons wall cpu name s caller rest h, rfl, rfl, rfl⟩
  · intro s0 h
    rw [thread_create, enter_eq_nil wall cpu "" ThreadState.init rfl] at h
    simp only [Option.map_some'] at h
    rw [Option.some_inj] at h
    subst h
    exact ⟨_, rfl, rfl, rfl, rfl⟩

/-- Witness for C2 at a concrete one-frame state. -/
theorem claim_C2_witness :
    ∃ fr : Timer,
      enter_stack_frame (fun k => k + 1) (fun k => k + 1) "g"
          ⟨[Timer.fresh "r" 0 0 0], [], 1, 0, 1, []⟩ =
        some { (⟨[Timer.fresh "r" 0 0 0], [], 1, 0, 1, []⟩ : ThreadState) with
                 stack := fr ::
                   { Timer.fresh "r" 0 0 0 with youngest_child_index := 1 } :: [],
                 index := 2,
                 ticks := 2 } ∧
      fr.index = 1 ∧
      fr.caller_index = (Timer.fresh "r" 0 0 0).index ∧
      fr.prev_index = (Timer.fresh "r" 0 0 0).youngest_child_index :=
  (claim_C2 (fun k => k + 1) (fun k => k + 1) "g"
      ⟨[Timer.fresh "r" 0 0 0], [], 1, 0, 1, []⟩).1
    (Timer.fresh "r" 0 0 0) [] rfl

/-! ## Claim C7: disabled guard is a no-op -/

/-- C7: when the Process enablement flag is false at the moment the
ScopeTimer guard is constructed, both construction and destruction
leave the thread state exactly unchanged: no frame is created, the
active list, the finished collection, the index counter and the event
log are untouched, and no callback hook fires. -/
theorem claim_C7 (wall cpu : Nat → Nat) (proc : Process) (name : String)
    (s : ThreadState) (h : proc.enabled = false) :
    scope_timer_create wall cpu proc name s = some (⟨false⟩, s) ∧
    scope_timer_destroy wall cpu proc ⟨false⟩ s = some s := by
  constructor
  · rw [scope_timer_create, h]
    rfl
  · rfl

/-- Witness for C7 at a concrete disabled process and state. -/
theorem claim_C7_witness :
    scope_timer_create (fun k => k) (fun k => k) ⟨false, 3⟩ "f" ThreadState.init =
        some (⟨false⟩, ThreadState.init) ∧
    scope_timer_destroy (fun k => k) (fun k => k) ⟨false, 3⟩ ⟨false⟩ ThreadState.init =
        some ThreadState.init :=
  claim_C7 (fun k => k) (fun k => k) ⟨false, 3⟩ "f" ThreadState.init rfl

/-! ## Claim C8: drain is idempotent -/

/-- C8: drain_finished swaps the finished collection for an empty one
and returns the removed frames, so a first drain returns everything
accumulated, leaves the buffer empty, and a second drain with no
intervening exit returns the empty collection. -/
theorem claim_C8 (s : ThreadState) :
    (drain_finished s).1 = s.finished ∧
    ((drain_finished s).2).finished = [] ∧
    (drain_finished (drain_finished s).2).1 = [] ∧
    ((drain_finished (drain_finished s).2).2).finished = [] :=
  ⟨rfl, rfl, rfl, rfl⟩

/-! ## Claim C5: the flush decision after exit -/

/-- The flush condition as the claim states it: fire when the period
is Always, or Periodic with now at least last_flush_time plus the
threshold (a non-strict comparison). -/
def c5_claim_fires (period last_log now : Nat) : Bool :=
  period != 0 && (period == 1 || last_log + period ≤ now)

/-- A finished frame with stop_cpu = 7 for the C5 counterexample. -/
def c5_timer : Timer := ⟨"f", 1, 0, 0, 1, 1, 2, 7, 0⟩

/-- A thread state that has just finished c5_timer. -/
def c5_state : ThreadState := ⟨[], [c5_timer], 2, 0, 4, []⟩

/-- Counterexample to C5 as stated: with threshold 7, last_flush_time
0 and now = 7 the claim requires a flush (7 is at least 0 + 7), but
the code compares strictly and does nothing; and when a flush does
fire (period 1), last_log is not updated to now, it stays 0. -/
theorem claim_C5_counterexample :
    c5_claim_fires 7 0 7 = true ∧
    maybe_flush ⟨true, 7⟩ c5_state = c5_state ∧
    (maybe_flush ⟨true, 1⟩ c5_state).inSituCount = 1 ∧
    (maybe_flush ⟨true, 1⟩ c5_state).last_log = 0 := by
  refine ⟨rfl, ?_, ?_, ?_⟩ <;> decide

/-- C5 as amended: after every exit, maybe_flush reads the stop-CPU
time of the frame that just finished (the most recently finished
frame) as now; it invokes the batch hook, emptying the finished
collection, iff the period is nonzero and either equals one (Always)
or now is STRICTLY greater than last_flush_time + threshold;
last_flush_time (last_log) is never updated; a zero period (Never)
never fires here. -/
theorem claim_C5 (wall cpu : Nat → Nat) (proc : Process) (s : ThreadState)
    (top : Timer) (rest : List Timer) (h : s.stack = top :: rest)
    (h1 : top.stop_cpu = 0) (h2 : top.start_cpu ≠ 0) :
    ∃ s', exit_stack_frame wall cpu proc s = some s' ∧
      s'.last_log = s.last_log ∧
      (if proc.callback_period ≠ 0 ∧
          (proc.callback_period = 1 ∨ s.last_log + proc.callback_period < cpu s.ticks)
       then s'.finished = [] ∧
            s'.events = s.events ++ [CallbackEvent.thread_in_situ (s.finished ++
              [{ top with stop_wall := wall s.ticks, stop_cpu := cpu s.ticks }])]
       else s'.finished = s.finished ++
              [{ top with stop_wall := wall s.ticks, stop_cpu := cpu s.ticks }] ∧
            s'.events = s.events) := by
  rw [exit_eq_cons wall cpu proc s top rest h h1 h2]
  refine ⟨_, rfl, ?_, ?_⟩
  · rw [maybe_flush_last_log]
  · rw [maybe_flush]
    have hlast :
        (s.finished ++
          [{ top with stop_wall := wall s.ticks, stop_cpu := cpu s.ticks }]).getLast? =
        some { top with stop_wall := wall s.ticks, stop_cpu := cpu s.ticks } := by
      rw [List.getLast?_append]
      rfl
    rw [hlast]
    dsimp only
    split
    · exact ⟨rfl, rfl⟩
    · exact ⟨rfl, rfl⟩

/-- Witness for the amended C5 at a concrete state (period 1). -/
theorem claim_C5_witness :
    ∃ s', exit_stack_frame (fun k => k + 1) (fun k => k + 1) ⟨true, 1⟩
        ⟨[⟨"f", 1, 0, 0, 3, 5, 0, 0, 0⟩], [], 2, 0, 1, []⟩ = some s' ∧
      s'.last_log = (⟨[⟨"f", 1, 0, 0, 3, 5, 0, 0, 0⟩], [], 2, 0, 1, []⟩ : ThreadState).last_log ∧
      (if (⟨true, 1⟩ : Process).callback_period ≠ 0 ∧
          ((⟨true, 1⟩ : Process).callback_period = 1 ∨
            (0 : Nat) + (⟨true, 1⟩ : Process).callback_period < (fun k => k + 1) 1)
       then s'.finished = [] ∧
            s'.events = [] ++ [CallbackEvent.thread_in_situ ([] ++
              [{ (⟨"f", 1, 0, 0, 3, 5, 0, 0, 0⟩ : Timer) with
                   stop_wall := (fun k => k + 1) 1, stop_cpu := (fun k => k + 1) 1 }])]
       else s'.finished = [] ++
              [{ (⟨"f", 1, 0, 0, 3, 5, 0, 0, 0⟩ : Timer) with
                   stop_wall := (fun k => k + 1) 1, stop_cpu := (fun k => k + 1) 1 }] ∧
            s'.events = []) :=
  claim_C5 (fun k => k + 1) (fun k => k + 1) ⟨true, 1⟩
    ⟨[⟨"f", 1, 0, 0, 3, 5, 0, 0, 0⟩], [], 2, 0, 1, []⟩
    ⟨"f", 1, 0, 0, 3, 5, 0, 0, 0⟩ [] rfl rfl (by decide)

/-! ## Claim C6: configuration capture at Stack creation -/

/-- Clock used for the C6 run. -/
def c6_clock : Nat → Nat := fun k => k + 1

/-- A thread created while callback_period is 0 (Never), after which
the period is set to 1: the subsequent exit on the SAME thread. -/
def c6_run : Option (Process × ThreadState) :=
  (thread_create c6_clock c6_clock).bind fun s0 =>
    runOps c6_clock c6_clock [Op.set_period 1, Op.enter "f", Op.exitScope] (⟨true, 0⟩, s0)

/-- The same run without the configuration change. -/
def c6_run_unchanged : Option (Process × ThreadState) :=
  (thread_create c6_clock c6_clock).bind fun s0 =>
    runOps c6_clock c6_clock [Op.enter "f", Op.exitScope] (⟨true, 0⟩, s0)

/-- C6 fails on the code: a thread created under callback_period 0
(Never) observes a set_callback_period(1) issued after its creation:
its very next exit invokes the thread_in_situ hook once, while the
configuration in effect at creation would have invoked it zero times
(second conjunct).  Thread::get_callback_period reads the live Process
field, contradicting the documented contract that in-progress threads
complete with the prior value. -/
theorem claim_C6 :
    (c6_run.map fun ps => ps.2.inSituCount) = some 1 ∧
    (c6_run_unchanged.map fun ps => ps.2.inSituCount) = some 0 := by
  constructor <;> decide

/-! ## Lookup lemmas -/

/-- Two frames that agree on everything the tree-building engine reads:
identity, tree linkage and start timestamps (only the stop fields may
differ; stopping a frame preserves this relation). -/
def sameFrame (a b : Timer) : Prop :=
  a.index = b.index ∧ a.caller_index = b.caller_index ∧ a.prev_index = b.prev_index ∧
  a.youngest_child_index = b.youngest_child_index ∧
  a.start_wall = b.start_wall ∧ a.start_cpu = b.start_cpu

theorem sameFrame_refl (a : Timer) : sameFrame a a :=
  ⟨rfl, rfl, rfl, rfl, rfl, rfl⟩

theorem forall2_sameFrame_refl (l : List Timer) : List.Forall₂ sameFrame l l := by
  induction l with
  | nil => exact List.Forall₂.nil
  | cons a l ih => exact List.Forall₂.cons (sameFrame_refl a) ih

theorem forall2_sameFrame_mem_right {l l' : List Timer}
    (h : List.Forall₂ sameFrame l l') :
    ∀ t' ∈ l', ∃ t ∈ l, sameFrame t t' := by
  induction h with
  | nil => intro t' h'; cases h'
  | cons hab h ih =>
    intro t' h'
    rcases List.mem_cons.mp h' with rfl | h'
    · exact ⟨_, List.mem_cons_self _ _, hab⟩
    · rcases ih t' h' with ⟨t, ht, hst⟩
      exact ⟨t, List.mem_cons_of_mem _ ht, hst⟩

theorem forall2_sameFrame_mem_left {l l' : List Timer}
    (h : List.Forall₂ sameFrame l l') :
    ∀ t ∈ l, ∃ t' ∈ l', sameFrame t t' := by
  induction h with
  | nil => intro t h'; cases h'
  | cons hab h ih =>
    intro t h'
    rcases List.mem_cons.mp h' with rfl | h'
    · exact ⟨_, List.mem_cons_self _ _, hab⟩
    · rcases ih t h' with ⟨t', ht', hst⟩
      exact ⟨t', List.mem_cons_of_mem _ ht', hst⟩

theorem forall2_sameFrame_map_index {l l' : List Timer}
    (h : List.Forall₂ sameFrame l l') :
    l.map Timer.index = l'.map Timer.index := by
  induction h with
  | nil => rfl
  | cons hab h ih => simp only [List.map_cons, ih, hab.1]

theorem lookupFrame_cons (t : Timer) (l : List Timer) (i : Nat) :
    lookupFrame (t :: l) i = if t.index = i then some t else lookupFrame l i := by
  by_cases h : t.index = i
  · rw [lookupFrame, List.find?_cons_of_pos _ (by simpa using h), if_pos h]
  · rw [lookupFrame, List.find?_cons_of_neg _ (by simpa using h), if_neg h]
    rfl

theorem lookupFrame_mem {l : List Timer} {i : Nat} {t : Timer}
    (h : lookupFrame l i = some t) : t ∈ l ∧ t.index = i := by
  refine ⟨List.mem_of_find?_eq_some h, ?_⟩
  have := List.find?_some h
  simpa using this

theorem lookupFrame_eq_none {l : List Timer} {i : Nat}
    (h : ∀ t ∈ l, t.index ≠ i) : lookupFrame l i = none := by
  induction l with
  | nil => rfl
  | cons a l ih =>
    rw [lookupFrame_cons, if_neg (h a (List.mem_cons_self _ _))]
    exact ih fun t ht => h t (List.mem_cons_of_mem _ ht)

theorem lookupFrame_eq_some {l : List Timer} {t : Timer}
    (hmem : t ∈ l) (hnd : (l.map Timer.index).Nodup) :
    lookupFrame l t.index = some t := by
  induction l with
  | nil => cases hmem
  | cons a l ih =>
    rw [lookupFrame_cons]
    rcases List.mem_cons.mp hmem with rfl | hmem
    · rw [if_pos rfl]
    · have hne : a.index ≠ t.index := by
        intro he
        have : a.index ∈ l.map Timer.index := he ▸ List.mem_map_of_mem Timer.index hmem
        exact (List.nodup_cons.mp hnd).1 this
      rw [if_neg hne]
      exact ih hmem (List.nodup_cons.mp hnd).2

theorem lookupFrame_congr {l l' : List Timer} (h : List.Forall₂ sameFrame l l')
    (i : Nat) :
    (lookupFrame l i = none ∧ lookupFrame l' i = none) ∨
    (∃ a b, lookupFrame l i = some a ∧ lookupFrame l' i = some b ∧ sameFrame a b) := by
  induction h with
  | nil => exact Or.inl ⟨rfl, rfl⟩
  | cons hab h ih =>
    rename_i a b l l'
    rw [lookupFrame_cons, lookupFrame_cons]
    by_cases hi : a.index = i
    · rw [if_pos hi, if_pos (hab.1 ▸ hi)]
      exact Or.inr ⟨a, b, rfl, rfl, hab⟩
    · rw [if_neg hi, if_neg (hab.1 ▸ hi)]
      exact ih

theorem prevOf_congr {l l' : List Timer} (h : List.Forall₂ sameFrame l l') (i : Nat) :
    prevOf l i = prevOf l' i := by
  rcases lookupFrame_congr h i with ⟨h1, h2⟩ | ⟨a, b, h1, h2, hab⟩
  · rw [prevOf, prevOf, h1, h2]
  · rw [prevOf, prevOf, h1, h2]
    exact hab.2.2.1

theorem isChildOf_congr {l l' : List Timer} (h : List.Forall₂ sameFrame l l')
    (p i : Nat) : isChildOf l p i = isChildOf l' p i := by
  rcases lookupFrame_congr h i with ⟨h1, h2⟩ | ⟨a, b, h1, h2, hab⟩
  · rw [isChildOf, isChildOf, h1, h2]
  · rw [isChildOf, isChildOf, h1, h2]
    simp only [hab.2.1]

/-! ## Chain lemmas -/

theorem chainTo_zero (l : List Timer) (fuel : Nat) : chainTo l fuel 0 = [] := by
  cases fuel <;> rfl

/-- The prev links over a frame collection always point strictly
downward when every frame satisfies prev_index less than its index. -/
def prevDec (l : List Timer) : Prop :=
  ∀ j, j ≠ 0 → prevOf l j < j

theorem chainTo_congr_all {l l' : List Timer} (h : ∀ j, prevOf l j = prevOf l' j) :
    ∀ fuel c, chainTo l fuel c = chainTo l' fuel c := by
  intro fuel
  induction fuel with
  | zero => intro c; rfl
  | succ fuel ih =>
    intro c
    cases c with
    | zero => rfl
    | succ j =>
      rw [chainTo, chainTo, ih, h]

theorem chainTo_agree {l l' : List Timer} (hd : prevDec l) :
    ∀ fuel c, (∀ j, j ≤ c → prevOf l j = prevOf l' j) →
      chainTo l fuel c = chainTo l' fuel c := by
  intro fuel
  induction fuel with
  | zero => intro c _; rfl
  | succ fuel ih =>
    intro c hagr
    cases c with
    | zero => rfl
    | succ j =>
      rw [chainTo, chainTo, ← hagr (j + 1) le_rfl]
      congr 1
      refine ih (prevOf l (j + 1)) fun j2 hj2 => hagr j2 ?_
      exact le_trans hj2 (Nat.le_of_lt (hd (j + 1) (Nat.succ_ne_zero j)))

theorem chainTo_fuel {l : List Timer} (hd : prevDec l) :
    ∀ c f1 f2, c ≤ f1 → c ≤ f2 → chainTo l f1 c = chainTo l f2 c := by
  intro c
  induction c using Nat.strong_induction_on with
  | _ c ih =>
    intro f1 f2 h1 h2
    cases c with
    | zero => rw [chainTo_zero, chainTo_zero]
    | succ j =>
      rcases Nat.exists_eq_add_of_le h1 with ⟨a, rfl⟩
      rcases Nat.exists_eq_add_of_le h2 with ⟨b, rfl⟩
      rw [show j + 1 + a = (j + a) + 1 by omega, show j + 1 + b = (j + b) + 1 by omega]
      rw [chainTo, chainTo]
      congr 1
      have hp : prevOf l (j + 1) < j + 1 := hd (j + 1) (Nat.succ_ne_zero j)
      exact ih (prevOf l (j + 1)) hp (j + a) (j + b) (by omega) (by omega)

theorem chainTo_getLast_prev {l : List Timer} (hd : prevDec l) :
    ∀ c fuel, c ≤ fuel → ∀ j, (chainTo l fuel c).getLast? = some j →
      prevOf l j = 0 := by
  intro c
  induction c using Nat.strong_induction_on with
  | _ c ih =>
    intro fuel hc j hlast
    cases c with
    | zero => rw [chainTo_zero] at hlast; cases hlast
    | succ i =>
      rcases Nat.exists_eq_add_of_le hc with ⟨a, ha⟩
      have hfe : fuel = (i + a) + 1 := by omega
      subst hfe
      rw [chainTo] at hlast
      have hp : prevOf l (i + 1) < i + 1 := hd (i + 1) (Nat.succ_ne_zero i)
      rcases hq : prevOf l (i + 1) with _ | q
      · rw [hq, chainTo_zero] at hlast
        simp only [List.getLast?_singleton, Option.some_inj] at hlast
        rw [← hlast, hq]
      · have hq' : q + 1 ≤ i + a := by omega
        obtain ⟨b, hb⟩ : ∃ b, i + a = b + 1 := ⟨i + a - 1, by omega⟩
        rw [hq, hb, chainTo, List.getLast?_cons_cons] at hlast
        refine ih (q + 1) (by omega) (b + 1) (by omega) j ?_
        rw [chainTo]
        exact hlast

/-! ## Children lemmas -/

theorem childrenDesc_congr {l l' : List Timer} (h : List.Forall₂ sameFrame l l')
    (n p : Nat) : childrenDesc l n p = childrenDesc l' n p := by
  rw [childrenDesc, childrenDesc]
  congr 1
  exact List.filter_congr fun j _ => isChildOf_congr h p j

theorem childrenDesc_succ (l : List Timer) (n p : Nat) :
    childrenDesc l (n + 1) p =
      (if isChildOf l p n then [n] else []) ++ childrenDesc l n p := by
  rw [childrenDesc, childrenDesc, List.range_succ, List.filter_append,
    List.reverse_append]
  congr 1
  rw [List.filter_cons]
  split <;> rfl

theorem childrenDesc_eq_nil {l : List Timer} {n p : Nat}
    (h : ∀ j, j < n → isChildOf l p j = false) : childrenDesc l n p = [] := by
  rw [childrenDesc, List.reverse_eq_nil_iff]
  rw [List.filter_eq_nil_iff]
  intro j hj
  rw [h j (List.mem_range.mp hj)]
  exact Bool.false_ne_true

theorem childrenDesc_nodup (l : List Timer) (n p : Nat) :
    (childrenDesc l n p).Nodup := by
  rw [childrenDesc]
  exact List.nodup_reverse.mpr (List.Nodup.filter _ (List.nodup_range n))

theorem mem_childrenDesc {l : List Timer} {n p j : Nat} :
    j ∈ childrenDesc l n p ↔ j < n ∧ isChildOf l p j = true := by
  rw [childrenDesc, List.mem_reverse, List.mem_filter, List.mem_range]

theorem chainTo_succ_pos (l : List Timer) (fuel c : Nat) (hc : c ≠ 0) :
    chainTo l (fuel + 1) c = c :: chainTo l fuel (prevOf l c) := by
  cases c with
  | zero => exact absurd rfl hc
  | succ j => rw [chainTo]

theorem isChildOf_eq_true {l : List Timer} {p j : Nat} :
    isChildOf l p j = true ↔
      ∃ t, lookupFrame l j = some t ∧ j ≠ 0 ∧ t.caller_index = p := by
  rw [isChildOf]
  rcases hl : lookupFrame l j with _ | t
  · simp
  · simp [Bool.and_eq_true, bne_iff_ne, beq_iff_eq]

/-! ## The tree invariant -/

/-- The structural invariant of the frame collection of one thread:
indices are dense below the counter and unique, tree links point
strictly downward, and following prev links from each frame's
youngest_child_index enumerates exactly its children in decreasing
index order. -/
structure InvList (l : List Timer) (n : Nat) : Prop where
  idx_lt : ∀ t ∈ l, t.index < n
  idx_nodup : (l.map Timer.index).Nodup
  idx_complete : ∀ i, i < n → ∃ t, t ∈ l ∧ t.index = i
  caller_lt : ∀ t ∈ l, t.index ≠ 0 → t.caller_index < t.index
  prev_lt : ∀ t ∈ l, t.index ≠ 0 → t.prev_index < t.index
  young_lt : ∀ t ∈ l, t.youngest_child_index < n
  chains : ∀ t ∈ l, chainTo l n t.youngest_child_index = childrenDesc l n t.index

theorem InvList.prevDec {l : List Timer} {n : Nat} (h : InvList l n) :
    prevDec l := by
  intro j hj
  rcases hl : lookupFrame l j with _ | t
  · rw [prevOf, hl]
    exact Nat.pos_of_ne_zero hj
  · rw [prevOf, hl]
    rcases lookupFrame_mem hl with ⟨hmem, hidx⟩
    have := h.prev_lt t hmem (by rw [hidx]; exact hj)
    dsimp only
    omega

theorem no_high_children {l : List Timer} {n : Nat} (h : InvList l n)
    (p : Nat) (hp : n ≤ p) (j : Nat) (hj : j < n) : isChildOf l p j = false := by
  rcases hic : isChildOf l p j with _ | _
  · rfl
  · exfalso
    rcases isChildOf_eq_true.mp hic with ⟨t, hl, hj0, hcp⟩
    rcases lookupFrame_mem hl with ⟨hmem, hidx⟩
    have := h.caller_lt t hmem (by rw [hidx]; exact hj0)
    omega

theorem InvList.transport {l l' : List Timer} {n : Nat}
    (hrel : List.Forall₂ sameFrame l l') (h : InvList l n) : InvList l' n := by
  refine ⟨?_, ?_, ?_, ?_, ?_, ?_, ?_⟩
  · intro t' ht'
    rcases forall2_sameFrame_mem_right hrel t' ht' with ⟨t, ht, hst⟩
    rw [← hst.1]
    exact h.idx_lt t ht
  · rw [← forall2_sameFrame_map_index hrel]
    exact h.idx_nodup
  · intro i hi
    rcases h.idx_complete i hi with ⟨t, ht, hidx⟩
    rcases forall2_sameFrame_mem_left hrel t ht with ⟨t', ht', hst⟩
    exact ⟨t', ht', hst.1 ▸ hidx⟩
  · intro t' ht' hne
    rcases forall2_sameFrame_mem_right hrel t' ht' with ⟨t, ht, hst⟩
    rw [← hst.1, ← hst.2.1]
    exact h.caller_lt t ht (by rw [hst.1]; exact hne)
  · intro t' ht' hne
    rcases forall2_sameFrame_mem_right hrel t' ht' with ⟨t, ht, hst⟩
    rw [← hst.1, ← hst.2.2.1]
    exact h.prev_lt t ht (by rw [hst.1]; exact hne)
  · intro t' ht'
    rcases forall2_sameFrame_mem_right hrel t' ht' with ⟨t, ht, hst⟩
    rw [← hst.2.2.2.1]
    exact h.young_lt t ht
  · intro t' ht'
    rcases forall2_sameFrame_mem_right hrel t' ht' with ⟨t, ht, hst⟩
    rw [← chainTo_congr_all (prevOf_congr hrel) n t'.youngest_child_index,
      ← hst.2.2.2.1, ← childrenDesc_congr hrel n t'.index, ← hst.1]
    exact h.chains t ht

theorem forall2_sameFrame_mid (completed rest : List Timer) {a b : Timer}
    (hab : sameFrame a b) :
    List.Forall₂ sameFrame (completed ++ a :: rest) (completed ++ b :: rest) := by
  induction completed with
  | nil => exact List.Forall₂.cons hab (forall2_sameFrame_refl rest)
  | cons x l ih => exact List.Forall₂.cons (sameFrame_refl x) ih

/-- Stopping the timers of one frame preserves the tree invariant: the
frame moved from the stack to the finished buffer keeps its identity
and linkage. -/
theorem invList_exit (completed rest : List Timer) (top : Timer) (n sw sc : Nat)
    (h : InvList (completed ++ top :: rest) n) :
    InvList (completed ++ { top with stop_wall := sw, stop_cpu := sc } :: rest) n := by
  have hab : sameFrame top { top with stop_wall := sw, stop_cpu := sc } :=
    ⟨rfl, rfl, rfl, rfl, rfl, rfl⟩
  exact h.transport (forall2_sameFrame_mid completed rest hab)

/-- Entering a new frame on a non-empty stack preserves the tree
invariant and extends the counter by one: the new frame becomes the
youngest child of the caller (the old top of the stack), whose
previous youngest child becomes the new frame's older sibling. -/
theorem invList_enter (completed rest : List Timer) (caller : Timer) (n : Nat)
    (name : String) (sw sc : Nat)
    (h : InvList (completed ++ caller :: rest) n) :
    InvList (completed ++
      (⟨name, n, caller.index, caller.youngest_child_index, sw, sc, 0, 0, 0⟩ : Timer) ::
      { caller with youngest_child_index := n } :: rest) (n + 1) := by
  set newT : Timer :=
    ⟨name, n, caller.index, caller.youngest_child_index, sw, sc, 0, 0, 0⟩ with hnewT
  set caller' : Timer := { caller with youngest_child_index := n } with hcaller'
  set l : List Timer := completed ++ caller :: rest with hl
  set l' : List Timer := completed ++ newT :: caller' :: rest with hl'
  have hcallmem : caller ∈ l := List.mem_append_right _ (List.mem_cons_self _ _)
  have hc : caller.index < n := h.idx_lt caller hcallmem
  have hn0 : 0 < n := Nat.lt_of_le_of_lt (Nat.zero_le _) hc
  have hyoung_caller : caller.youngest_child_index < n := h.young_lt caller hcallmem
  -- index multiset of the new collection: the fresh index n in front
  have hfresh : (n : Nat) ∉ l.map Timer.index := by
    intro hmem
    rcases List.mem_map.mp hmem with ⟨t, ht, hidx⟩
    have := h.idx_lt t ht
    omega
  have hperm : List.Perm (l'.map Timer.index) (n :: l.map Timer.index) := by
    rw [hl, hl']
    simp only [List.map_append, List.map_cons]
    exact List.perm_middle
  have hnodup' : (l'.map Timer.index).Nodup :=
    (List.Perm.nodup_iff hperm).mpr (List.nodup_cons.mpr ⟨hfresh, h.idx_nodup⟩)
  -- membership in the new collection
  have hmemT' : newT ∈ l' := List.mem_append_right _ (List.mem_cons_self _ _)
  have hmemC' : caller' ∈ l' :=
    List.mem_append_right _ (List.mem_cons_of_mem _ (List.mem_cons_self _ _))
  have hmem' : ∀ t' : Timer, t' ∈ l' →
      t' ∈ completed ∨ t' = newT ∨ t' = caller' ∨ t' ∈ rest := by
    intro t' ht'
    rcases List.mem_append.mp ht' with h1 | h2
    · exact Or.inl h1
    · rcases List.mem_cons.mp h2 with h3 | h4
      · exact Or.inr (Or.inl h3)
      · rcases List.mem_cons.mp h4 with h5 | h6
        · exact Or.inr (Or.inr (Or.inl h5))
        · exact Or.inr (Or.inr (Or.inr h6))
  have hsubl : ∀ t' : Timer, t' ∈ completed ∨ t' ∈ rest → t' ∈ l := by
    intro t' h'
    rcases h' with h' | h'
    · exact List.mem_append_left _ h'
    · exact List.mem_append_right _ (List.mem_cons_of_mem _ h')
  have hsubl' : ∀ t' : Timer, t' ∈ completed ∨ t' ∈ rest → t' ∈ l' := by
    intro t' h'
    rcases h' with h' | h'
    · exact List.mem_append_left _ h'
    · exact List.mem_append_right _
        (List.mem_cons_of_mem _ (List.mem_cons_of_mem _ h'))
  have hne_c : ∀ t' : Timer, t' ∈ completed ∨ t' ∈ rest →
      t'.index ≠ caller.index := by
    have hnd := h.idx_nodup
    rw [hl, List.map_append, List.map_cons] at hnd
    rcases List.nodup_append.mp hnd with ⟨hnd1, hnd2, hdisj⟩
    intro t' h' heq
    rcases h' with h' | h'
    · exact hdisj (List.mem_map_of_mem _ h')
        (by rw [heq]; exact List.mem_cons_self _ _)
    · exact (List.nodup_cons.mp hnd2).1
        (by rw [← heq]; exact List.mem_map_of_mem _ h')
  -- lookups in the new collection
  have hlook_n : lookupFrame l' n = some newT :=
    lookupFrame_eq_some hmemT' hnodup'
  have hlook_c : lookupFrame l' caller.index = some caller' :=
    lookupFrame_eq_some hmemC' hnodup'
  have hlook_c_old : lookupFrame l caller.index = some caller :=
    lookupFrame_eq_some hcallmem h.idx_nodup
  have hlook_other : ∀ i, i ≠ n → i ≠ caller.index →
      lookupFrame l' i = lookupFrame l i := by
    intro i hin hic
    rcases hold : lookupFrame l i with _ | t
    · refine lookupFrame_eq_none ?_
      intro t' ht' hieq
      rcases hmem' t' ht' with h' | h' | h' | h'
      · have := lookupFrame_eq_some (hsubl t' (Or.inl h')) h.idx_nodup
        rw [hieq, hold] at this
        cases this
      · rw [h'] at hieq
        exact hin hieq.symm
      · rw [h'] at hieq
        exact hic hieq.symm
      · have := lookupFrame_eq_some (hsubl t' (Or.inr h')) h.idx_nodup
        rw [hieq, hold] at this
        cases this
    · rcases lookupFrame_mem hold with ⟨htl, hti⟩
      rcases List.mem_append.mp htl with h1 | h2
      · have := lookupFrame_eq_some (hsubl' t (Or.inl h1)) hnodup'
        rw [hti] at this
        exact this
      · rcases List.mem_cons.mp h2 with h3 | h4
        · rw [h3] at hti
          exact absurd hti.symm hic
        · have := lookupFrame_eq_some (hsubl' t (Or.inr h4)) hnodup'
          rw [hti] at this
          exact this
  -- prev links of the new collection
  have hprev_n : prevOf l' n = caller.youngest_child_index := by
    rw [prevOf, hlook_n]
  have hprev_other : ∀ i, i ≠ n → prevOf l' i = prevOf l i := by
    intro i hin
    by_cases hic : i = caller.index
    · rw [hic, prevOf, hlook_c, prevOf, hlook_c_old]
    · rw [prevOf, prevOf, hlook_other i hin hic]
  have hd : prevDec l := h.prevDec
  have hd' : prevDec l' := by
    intro j hj
    by_cases hjn : j = n
    · rw [hjn, hprev_n]
      exact hyoung_caller
    · rw [hprev_other j hjn]
      exact hd j hj
  -- children tests of the new collection
  have hbne : ((n : Nat) != 0) = true := by
    simp [bne_iff_ne]
    omega
  have hchild_n : ∀ p, isChildOf l' p n = (caller.index == p) := by
    intro p
    rw [isChildOf, hlook_n]
    dsimp only
    rw [hbne, Bool.true_and]
  have hchild_other : ∀ p i, i ≠ n → isChildOf l' p i = isChildOf l p i := by
    intro p i hin
    by_cases hic : i = caller.index
    · rw [hic, isChildOf, hlook_c, isChildOf, hlook_c_old]
    · rw [isChildOf, isChildOf, hlook_other i hin hic]
  have hcd : ∀ p, childrenDesc l' n p = childrenDesc l n p := by
    intro p
    rw [childrenDesc, childrenDesc]
    congr 1
    refine List.filter_congr fun j hj => ?_
    refine hchild_other p j ?_
    have := List.mem_range.mp hj
    omega
  have hchain_low : ∀ y, y < n → chainTo l' (n + 1) y = chainTo l n y := by
    intro y hy
    have h1 : chainTo l' (n + 1) y = chainTo l' n y :=
      chainTo_fuel hd' y (n + 1) n (by omega) (by omega)
    have h2 : chainTo l' n y = chainTo l n y :=
      chainTo_agree hd' n y fun j hj => hprev_other j (by omega)
    rw [h1, h2]
  -- assemble the invariant
  refine ⟨?_, ?_, ?_, ?_, ?_, ?_, ?_⟩
  · intro t' ht'
    rcases hmem' t' ht' with h' | h' | h' | h'
    · have := h.idx_lt t' (hsubl t' (Or.inl h'))
      omega
    · rw [h']
      exact Nat.lt_succ_self n
    · rw [h']
      show caller.index < n + 1
      omega
    · have := h.idx_lt t' (hsubl t' (Or.inr h'))
      omega
  · exact hnodup'
  · intro i hi
    by_cases hin : i = n
    · exact ⟨newT, hmemT', hin.symm⟩
    · rcases h.idx_complete i (by omega) with ⟨t, ht, hti⟩
      rcases List.mem_append.mp ht with h1 | h2
      · exact ⟨t, hsubl' t (Or.inl h1), hti⟩
      · rcases List.mem_cons.mp h2 with h3 | h4
        · refine ⟨caller', hmemC', ?_⟩
          show caller.index = i
          rw [← h3]
          exact hti
        · exact ⟨t, hsubl' t (Or.inr h4), hti⟩
  · intro t' ht' hne
    rcases hmem' t' ht' with h' | h' | h' | h'
    · exact h.caller_lt t' (hsubl t' (Or.inl h')) hne
    · rw [h']
      show caller.index < n
      exact hc
    · rw [h'] at hne ⊢
      exact h.caller_lt caller hcallmem hne
    · exact h.caller_lt t' (hsubl t' (Or.inr h')) hne
  · intro t' ht' hne
    rcases hmem' t' ht' with h' | h' | h' | h'
    · exact h.prev_lt t' (hsubl t' (Or.inl h')) hne
    · rw [h']
      show caller.youngest_child_index < n
      exact hyoung_caller
    · rw [h'] at hne ⊢
      exact h.prev_lt caller hcallmem hne
    · exact h.prev_lt t' (hsubl t' (Or.inr h')) hne
  · intro t' ht'
    rcases hmem' t' ht' with h' | h' | h' | h'
    · have := h.young_lt t' (hsubl t' (Or.inl h'))
      omega
    · rw [h']
      show (0 : Nat) < n + 1
      omega
    · rw [h']
      show n < n + 1
      omega
    · have := h.young_lt t' (hsubl t' (Or.inr h'))
      omega
  · intro t' ht'
    rcases hmem' t' ht' with h' | h' | h' | h'
    · -- a frame untouched by the enter
      have htl : t' ∈ l := hsubl t' (Or.inl h')
      have hyoung : t'.youngest_child_index < n := h.young_lt t' htl
      rw [hchain_low _ hyoung, h.chains t' htl, childrenDesc_succ, hchild_n, hcd]
      have hneq : (caller.index == t'.index) = false := by
        have := hne_c t' (Or.inl h')
        simp [beq_eq_false_iff_ne]
        omega
      rw [hneq]
      simp
    · -- the new frame: a leaf with no children
      rw [h']
      show chainTo l' (n + 1) 0 = childrenDesc l' (n + 1) n
      rw [chainTo_zero, childrenDesc_succ, hchild_n, hcd]
      have hneq : (caller.index == n) = false := by
        simp [beq_eq_false_iff_ne]
        omega
      rw [hneq]
      rw [childrenDesc_eq_nil (no_high_children h n le_rfl)]
      simp
    · -- the caller: the new frame becomes its youngest child
      rw [h']
      show chainTo l' (n + 1) n = childrenDesc l' (n + 1) caller.index
      rw [chainTo_succ_pos l' n n (by omega), hprev_n,
        chainTo_agree hd' n caller.youngest_child_index
          (fun j hj => hprev_other j (by omega)),
        h.chains caller hcallmem, childrenDesc_succ, hchild_n, hcd]
      rw [beq_self_eq_true]
      simp
    · have htl : t' ∈ l := hsubl t' (Or.inr h')
      have hyoung : t'.youngest_child_index < n := h.young_lt t' htl
      rw [hchain_low _ hyoung, h.chains t' htl, childrenDesc_succ, hchild_n, hcd]
      have hneq : (caller.index == t'.index) = false := by
        have := hne_c t' (Or.inr h')
        simp [beq_eq_false_iff_ne]
        omega
      rw [hneq]
      simp

/-! ## Timestamp invariants -/

/-- The start timestamps of frame t were captured at clock read k. -/
def capturedStart (wall cpu : Nat → Nat) (k : Nat) (t : Timer) : Prop :=
  t.start_wall = wall k ∧ t.start_cpu = cpu k

/-- The stop timestamps of frame t were captured at clock read k. -/
def capturedStop (wall cpu : Nat → Nat) (k : Nat) (t : Timer) : Prop :=
  t.stop_wall = wall k ∧ t.stop_cpu = cpu k

/-- Frames are started in index order: a frame with a smaller index
captured its start timestamps at an earlier clock read. -/
structure StartInv (wall cpu : Nat → Nat) (l : List Timer) (ticks : Nat) : Prop where
  pairs : ∀ t1 ∈ l, ∀ t2 ∈ l, t1.index < t2.index →
    ∃ k1 k2, k1 < k2 ∧ k2 < ticks ∧ capturedStart wall cpu k1 t1 ∧
      capturedStart wall cpu k2 t2
  any : ∀ t ∈ l, ∃ k, k < ticks ∧ capturedStart wall cpu k t

/-- Frames are stopped in completion order: consecutive frames of the
completed sequence captured their stop timestamps at increasing clock
reads. -/
structure StopInv (wall cpu : Nat → Nat) (l : List Timer) (ticks : Nat) : Prop where
  pairs : List.Pairwise (fun a b => ∃ k1 k2, k1 < k2 ∧ k2 < ticks ∧
    capturedStop wall cpu k1 a ∧ capturedStop wall cpu k2 b) l
  any : ∀ t ∈ l, ∃ k, k < ticks ∧ capturedStop wall cpu k t

/-- Both timestamp invariants of a thread state. -/
def TimeInv (wall cpu : Nat → Nat) (s : ThreadState) : Prop :=
  StartInv wall cpu s.allFrames s.ticks ∧ StopInv wall cpu s.completed s.ticks

/-- Every frame on the active stack has been started and not yet
stopped. -/
def activeOk (s : ThreadState) : Prop :=
  ∀ t ∈ s.stack, t.start_cpu ≠ 0 ∧ t.stop_cpu = 0

theorem startInv_mono_ticks {wall cpu : Nat → Nat} {l : List Timer}
    {ticks ticks' : Nat} (h : StartInv wall cpu l ticks) (hle : ticks ≤ ticks') :
    StartInv wall cpu l ticks' := by
  refine ⟨?_, ?_⟩
  · intro t1 h1 t2 h2 hlt
    rcases h.pairs t1 h1 t2 h2 hlt with ⟨k1, k2, hk, hb, hc1, hc2⟩
    exact ⟨k1, k2, hk, by omega, hc1, hc2⟩
  · intro t ht
    rcases h.any t ht with ⟨k, hk, hc⟩
    exact ⟨k, by omega, hc⟩

theorem stopInv_mono_ticks {wall cpu : Nat → Nat} {l : List Timer}
    {ticks ticks' : Nat} (h : StopInv wall cpu l ticks) (hle : ticks ≤ ticks') :
    StopInv wall cpu l ticks' := by
  refine ⟨?_, ?_⟩
  · refine h.pairs.imp ?_
    rintro a b ⟨k1, k2, hk, hb, hc1, hc2⟩
    exact ⟨k1, k2, hk, by omega, hc1, hc2⟩
  · intro t ht
    rcases h.any t ht with ⟨k, hk, hc⟩
    exact ⟨k, by omega, hc⟩

/-- One step of the start invariant: the new collection consists of
frames carried over unchanged in index and start fields, plus possibly
one new frame with the highest index, started at the current clock
read. -/
theorem startInv_step {wall cpu : Nat → Nat} {l l' : List Timer} {n ticks : Nat}
    (hS : StartInv wall cpu l ticks) (hidx : ∀ t ∈ l, t.index < n)
    (hmap : ∀ t' ∈ l', (t'.index = n ∧ capturedStart wall cpu ticks t') ∨
      ∃ t ∈ l, t.index = t'.index ∧ t.start_wall = t'.start_wall ∧
        t.start_cpu = t'.start_cpu) :
    StartInv wall cpu l' (ticks + 1) := by
  refine ⟨?_, ?_⟩
  · intro t1 h1 t2 h2 hlt
    rcases hmap t1 h1 with ⟨hn1, hc1⟩ | ⟨u1, hu1, hi1, hw1, hcp1⟩
    · rcases hmap t2 h2 with ⟨hn2, _⟩ | ⟨u2, hu2, hi2, _, _⟩
      · omega
      · have := hidx u2 hu2
        omega
    · rcases hmap t2 h2 with ⟨hn2, hc2⟩ | ⟨u2, hu2, hi2, hw2, hcp2⟩
      · rcases hS.any u1 hu1 with ⟨k1, hk1, hcs1⟩
        refine ⟨k1, ticks, by omega, by omega, ?_, hc2⟩
        exact ⟨hw1 ▸ hcs1.1, hcp1 ▸ hcs1.2⟩
      · rcases hS.pairs u1 hu1 u2 hu2 (by omega) with ⟨k1, k2, hk, hb, hcs1, hcs2⟩
        refine ⟨k1, k2, hk, by omega, ?_, ?_⟩
        · exact ⟨hw1 ▸ hcs1.1, hcp1 ▸ hcs1.2⟩
        · exact ⟨hw2 ▸ hcs2.1, hcp2 ▸ hcs2.2⟩
  · intro t ht
    rcases hmap t ht with ⟨hn, hc⟩ | ⟨u, hu, hi, hw, hcp⟩
    · exact ⟨ticks, by omega, hc⟩
    · rcases hS.any u hu with ⟨k, hk, hcs⟩
      exact ⟨k, by omega, hw ▸ hcs.1, hcp ▸ hcs.2⟩

/-- One step of the stop invariant: a frame stopped at the current
clock read is appended to the completed sequence. -/
theorem stopInv_snoc {wall cpu : Nat → Nat} {l : List Timer} {ticks : Nat}
    {t' : Timer} (hS : StopInv wall cpu l ticks)
    (hnew : capturedStop wall cpu ticks t') :
    StopInv wall cpu (l ++ [t']) (ticks + 1) := by
  refine ⟨?_, ?_⟩
  · rw [List.pairwise_append]
    refine ⟨(stopInv_mono_ticks hS (Nat.le_succ ticks)).pairs, List.pairwise_singleton _ _, ?_⟩
    intro a ha b hb
    rw [List.mem_singleton] at hb
    subst hb
    rcases hS.any a ha with ⟨k, hk, hc⟩
    exact ⟨k, ticks, by omega, by omega, hc, hnew⟩
  · intro t ht
    rcases List.mem_append.mp ht with ht | ht
    · rcases hS.any t ht with ⟨k, hk, hc⟩
      exact ⟨k, by omega, hc⟩
    · rw [List.mem_singleton] at ht
      subst ht
      exact ⟨ticks, by omega, hnew⟩

/-! ## The freshly created thread -/

/-- The state right after the Thread constructor returns. -/
def createdState (wall cpu : Nat → Nat) : ThreadState :=
  ⟨[⟨"", 0, 0, 0, wall 0, cpu 0, 0, 0, 0⟩], [], 1, 0, 1, [CallbackEvent.thread_start]⟩

theorem thread_create_eq (wall cpu : Nat → Nat) :
    thread_create wall cpu = some (createdState wall cpu) := by
  rw [thread_create, enter_eq_nil wall cpu "" ThreadState.init rfl]
  rfl

theorem createdState_invList (wall cpu : Nat → Nat) :
    InvList (createdState wall cpu).allFrames (createdState wall cpu).index := by
  show InvList [⟨"", 0, 0, 0, wall 0, cpu 0, 0, 0, 0⟩] 1
  refine ⟨?_, ?_, ?_, ?_, ?_, ?_, ?_⟩
  · intro t ht
    rw [List.mem_singleton] at ht
    subst ht
    exact Nat.lt_succ_self 0
  · simp
  · intro i hi
    have : i = 0 := by omega
    subst this
    exact ⟨_, List.mem_singleton_self _, rfl⟩
  · intro t ht hne
    rw [List.mem_singleton] at ht
    subst ht
    exact absurd rfl hne
  · intro t ht hne
    rw [List.mem_singleton] at ht
    subst ht
    exact absurd rfl hne
  · intro t ht
    rw [List.mem_singleton] at ht
    subst ht
    exact Nat.lt_succ_self 0
  · intro t ht
    rw [List.mem_singleton] at ht
    subst ht
    rw [chainTo_zero]
    symm
    refine childrenDesc_eq_nil ?_
    intro j hj
    have : j = 0 := by omega
    subst this
    rfl

theorem createdState_timeInv (wall cpu : Nat → Nat) :
    TimeInv wall cpu (createdState wall cpu) := by
  constructor
  · refine ⟨?_, ?_⟩
    · intro t1 h1 t2 h2 hlt
      rw [show (createdState wall cpu).allFrames =
        [⟨"", 0, 0, 0, wall 0, cpu 0, 0, 0, 0⟩] from rfl] at h1 h2
      rw [List.mem_singleton] at h1 h2
      subst h1
      subst h2
      exact absurd hlt (lt_irrefl _)
    · intro t ht
      rw [show (createdState wall cpu).allFrames =
        [⟨"", 0, 0, 0, wall 0, cpu 0, 0, 0, 0⟩] from rfl] at ht
      rw [List.mem_singleton] at ht
      subst ht
      exact ⟨0, Nat.lt_succ_self 0, rfl, rfl⟩
  · refine ⟨List.Pairwise.nil, ?_⟩
    intro t ht
    exact absurd ht (List.not_mem_nil t)

theorem createdState_activeOk (wall cpu : Nat → Nat) (hcpu : ∀ k, 0 < cpu k) :
    activeOk (createdState wall cpu) := by
  intro t ht
  rw [show (createdState wall cpu).stack =
    [⟨"", 0, 0, 0, wall 0, cpu 0, 0, 0, 0⟩] from rfl] at ht
  rw [List.mem_singleton] at ht
  subst ht
  refine ⟨?_, rfl⟩
  have := hcpu 0
  show cpu 0 ≠ 0
  omega

/-! ## Effect of one operation on a good state -/

theorem startInv_transport {wall cpu : Nat → Nat} {l l' : List Timer} {ticks : Nat}
    (hS : StartInv wall cpu l ticks)
    (hmap : ∀ t' ∈ l', ∃ t ∈ l, t.index = t'.index ∧ t.start_wall = t'.start_wall ∧
      t.start_cpu = t'.start_cpu) :
    StartInv wall cpu l' ticks := by
  refine ⟨?_, ?_⟩
  · intro t1 h1 t2 h2 hlt
    rcases hmap t1 h1 with ⟨u1, hu1, hi1, hw1, hcp1⟩
    rcases hmap t2 h2 with ⟨u2, hu2, hi2, hw2, hcp2⟩
    rcases hS.pairs u1 hu1 u2 hu2 (by omega) with ⟨k1, k2, hk, hb, hcs1, hcs2⟩
    exact ⟨k1, k2, hk, hb, ⟨hw1 ▸ hcs1.1, hcp1 ▸ hcs1.2⟩, ⟨hw2 ▸ hcs2.1, hcp2 ▸ hcs2.2⟩⟩
  · intro t ht
    rcases hmap t ht with ⟨u, hu, hi, hw, hcp⟩
    rcases hS.any u hu with ⟨k, hk, hcs⟩
    exact ⟨k, hk, hw ▸ hcs.1, hcp ▸ hcs.2⟩

/-- Everything one enter does to a state whose stack is non-empty. -/
theorem enter_step (wall cpu : Nat → Nat) (name : String) (s : ThreadState)
    (caller : Timer) (rest : List Timer) (hstk : s.stack = caller :: rest)
    (hcpu : 0 < cpu s.ticks) :
    ∃ s', enter_stack_frame wall cpu name s = some s' ∧
      s'.stack.length = s.stack.length + 1 ∧
      s'.finished = s.finished ∧
      s'.events = s.events ∧
      s'.index = s.index + 1 ∧
      s'.ticks = s.ticks + 1 ∧
      s'.completed = s.completed ∧
      (InvList s.allFrames s.index → InvList s'.allFrames s'.index) ∧
      (activeOk s → activeOk s') ∧
      (InvList s.allFrames s.index → StartInv wall cpu s.allFrames s.ticks →
        StartInv wall cpu s'.allFrames s'.ticks) := by
  have hall : s.allFrames = s.completed ++ caller :: rest := by
    rw [ThreadState.allFrames, hstk]
  refine ⟨_, enter_eq_cons wall cpu name s caller rest hstk, ?_, rfl, rfl, rfl, rfl,
    rfl, ?_, ?_, ?_⟩
  · rw [hstk]
    rfl
  · intro hI
    have h3 := invList_enter s.completed rest caller s.index name
      (wall s.ticks) (cpu s.ticks) (by rw [← hall]; exact hI)
    exact h3
  · intro hA t ht
    rcases List.mem_cons.mp ht with h' | h'
    · rw [h']
      refine ⟨?_, rfl⟩
      show cpu s.ticks ≠ 0
      omega
    · rcases List.mem_cons.mp h' with h'' | h''
      · rw [h'']
        have := hA caller (by rw [hstk]; exact List.mem_cons_self _ _)
        exact this
      · exact hA t (by rw [hstk]; exact List.mem_cons_of_mem _ h'')
  · intro hI hS
    refine startInv_step hS hI.idx_lt ?_
    intro t' ht'
    rcases List.mem_append.mp ht' with h' | h'
    · refine Or.inr ⟨t', ?_, rfl, rfl, rfl⟩
      rw [hall]
      exact List.mem_append_left _ h'
    · rcases List.mem_cons.mp h' with h'' | h''
      · rw [h'']
        exact Or.inl ⟨rfl, rfl, rfl⟩
      · rcases List.mem_cons.mp h'' with h3 | h3
        · rw [h3]
          refine Or.inr ⟨caller, ?_, rfl, rfl, rfl⟩
          rw [hall]
          exact List.mem_append_right _ (List.mem_cons_self _ _)
        · refine Or.inr ⟨t', ?_, rfl, rfl, rfl⟩
          rw [hall]
          exact List.mem_append_right _ (List.mem_cons_of_mem _ h3)

/-- Everything one exit does to a state whose stack is non-empty and
whose top frame is started and not yet stopped. -/
theorem exit_step (wall cpu : Nat → Nat) (proc : Process) (s : ThreadState)
    (top : Timer) (rest : List Timer) (hstk : s.stack = top :: rest)
    (h1 : top.stop_cpu = 0) (h2 : top.start_cpu ≠ 0) :
    ∃ s', exit_stack_frame wall cpu proc s = some s' ∧
      s'.stack = rest ∧
      s'.index = s.index ∧
      s'.ticks = s.ticks + 1 ∧
      s'.stopCount = s.stopCount ∧
      s'.completed = s.completed ++
        [{ top with stop_wall := wall s.ticks, stop_cpu := cpu s.ticks }] ∧
      (InvList s.allFrames s.index → InvList s'.allFrames s'.index) ∧
      (activeOk s → activeOk s') ∧
      (StartInv wall cpu s.allFrames s.ticks →
        StartInv wall cpu s'.allFrames s'.ticks) ∧
      (StopInv wall cpu s.completed s.ticks →
        StopInv wall cpu s'.completed s'.ticks) := by
  set top' : Timer := { top with stop_wall := wall s.ticks, stop_cpu := cpu s.ticks }
    with htop'
  set smid : ThreadState :=
    { s with stack := rest, finished := s.finished ++ [top'], ticks := s.ticks + 1 }
    with hsmid
  have hall : s.allFrames = s.completed ++ top :: rest := by
    rw [ThreadState.allFrames, hstk]
  have hstack' : (maybe_flush proc smid).stack = rest := by
    rw [maybe_flush_stack]
  have hidx' : (maybe_flush proc smid).index = s.index := by
    rw [maybe_flush_index]
  have hticks' : (maybe_flush proc smid).ticks = s.ticks + 1 := by
    rw [maybe_flush_ticks]
  have hcompleted' : (maybe_flush proc smid).completed = s.completed ++ [top'] := by
    rw [maybe_flush_completed]
    show ThreadState.delivered smid ++ (s.finished ++ [top']) = _
    rw [ThreadState.completed, ← List.append_assoc]
    rfl
  have hAF : (maybe_flush proc smid).allFrames = s.completed ++ top' :: rest := by
    rw [ThreadState.allFrames, hcompleted', hstack', List.append_assoc]
    rfl
  refine ⟨_, exit_eq_cons wall cpu proc s top rest hstk h1 h2, hstack', hidx',
    hticks', ?_, hcompleted', ?_, ?_, ?_, ?_⟩
  · rw [maybe_flush_stopCount]
    rfl
  · intro hI
    rw [hAF, hidx']
    exact invList_exit s.completed rest top s.index (wall s.ticks) (cpu s.ticks)
      (by rw [← hall]; exact hI)
  · intro hA t ht
    rw [hstack'] at ht
    exact hA t (by rw [hstk]; exact List.mem_cons_of_mem _ ht)
  · intro hS
    rw [hAF, hticks']
    refine startInv_mono_ticks (startInv_transport hS ?_) (Nat.le_succ _)
    intro t' ht'
    rcases List.mem_append.mp ht' with h' | h'
    · refine ⟨t', ?_, rfl, rfl, rfl⟩
      rw [hall]
      exact List.mem_append_left _ h'
    · rcases List.mem_cons.mp h' with h'' | h''
      · rw [h'']
        refine ⟨top, ?_, rfl, rfl, rfl⟩
        rw [hall]
        exact List.mem_append_right _ (List.mem_cons_self _ _)
      · refine ⟨t', ?_, rfl, rfl, rfl⟩
        rw [hall]
        exact List.mem_append_right _ (List.mem_cons_of_mem _ h'')
  · intro hS
    rw [hcompleted', hticks']
    exact stopInv_snoc hS ⟨rfl, rfl⟩

/-! ## The main induction over client operation sequences -/

/-- A properly nested client operation sequence, run from a good
state, completes without any assertion failure and preserves the tree
and timestamp invariants; the stack depth follows the nesting, the
counter advances by the number of enters, and the stop hook never
fires. -/
theorem runOps_good (wall cpu : Nat → Nat) (hcpu : ∀ k, 0 < cpu k) :
    ∀ (ops : List Op) (d : Nat) (p : Process) (s : ThreadState),
      nestedFrom d ops = true →
      InvList s.allFrames s.index →
      TimeInv wall cpu s →
      activeOk s →
      s.stack.length = d + 1 →
      ∃ p' s', runOps wall cpu ops (p, s) = some (p', s') ∧
        InvList s'.allFrames s'.index ∧
        TimeInv wall cpu s' ∧
        activeOk s' ∧
        s'.stack.length = depthAfter d ops + 1 ∧
        s'.index = s.index + countEnter ops ∧
        s'.stopCount = s.stopCount := by
  intro ops
  induction ops with
  | nil =>
    intro d p s hnest hI hT hA hlen
    refine ⟨p, s, rfl, hI, hT, hA, hlen, ?_, rfl⟩
    rw [countEnter]
    omega
  | cons o rest ih =>
    intro d p s hnest hI hT hA hlen
    cases o with
    | enter name =>
      rcases hstk : s.stack with _ | ⟨caller, crest⟩
      · rw [hstk] at hlen
        exact absurd hlen (by simp)
      · rcases enter_step wall cpu name s caller crest hstk (hcpu s.ticks) with
          ⟨s1, heq, hlen1, hfin1, hev1, hidx1, hticks1, hcomp1, hIp, hAp, hSp⟩
        have hT1 : TimeInv wall cpu s1 := by
          refine ⟨hSp hI hT.1, ?_⟩
          rw [hcomp1, hticks1]
          exact stopInv_mono_ticks hT.2 (Nat.le_succ _)
        have hnest1 : nestedFrom (d + 1) rest = true := hnest
        have hlen1' : s1.stack.length = (d + 1) + 1 := by omega
        rcases ih (d + 1) p s1 hnest1 (hIp hI) hT1 (hAp hA) hlen1' with
          ⟨p', s', hrun, hI', hT', hA', hlen', hidx', hstop'⟩
        have hstep : runOps wall cpu (Op.enter name :: rest) (p, s) =
            runOps wall cpu rest (p, s1) := by
          show ((enter_stack_frame wall cpu name s).map fun s2 => (p, s2)).bind
            (runOps wall cpu rest) = _
          rw [heq]
          rfl
        refine ⟨p', s', by rw [hstep]; exact hrun, hI', hT', hA', hlen', ?_, ?_⟩
        · rw [countEnter]
          omega
        · rw [hstop']
          have : s1.stopCount = s.stopCount := by
            rw [ThreadState.stopCount, ThreadState.stopCount, hev1]
          exact this
    | exitScope =>
      cases d with
      | zero =>
        rw [nestedFrom] at hnest
        cases hnest
      | succ e =>
        rcases hstk : s.stack with _ | ⟨top, crest⟩
        · rw [hstk] at hlen
          exact absurd hlen (by simp)
        · rcases hA top (by rw [hstk]; exact List.mem_cons_self _ _) with ⟨hsc, hst⟩
          rcases exit_step wall cpu p s top crest hstk hst hsc with
            ⟨s1, heq, hstk1, hidx1, hticks1, hstop1, hcomp1, hIp, hAp, hSp, hStp⟩
          have hT1 : TimeInv wall cpu s1 := ⟨hSp hT.1, hStp hT.2⟩
          have hnest1 : nestedFrom e rest = true := hnest
          have hlen1' : s1.stack.length = e + 1 := by
            rw [hstk1]
            rw [hstk] at hlen
            simp at hlen
            omega
          rcases ih e p s1 hnest1 (hIp hI) hT1 (hAp hA) hlen1' with
            ⟨p', s', hrun, hI', hT', hA', hlen', hidx', hstop'⟩
          have hstep : runOps wall cpu (Op.exitScope :: rest) (p, s) =
              runOps wall cpu rest (p, s1) := by
            show ((exit_stack_frame wall cpu p s).map fun s2 => (p, s2)).bind
              (runOps wall cpu rest) = _
            rw [heq]
            rfl
          refine ⟨p', s', by rw [hstep]; exact hrun, hI', hT', hA', ?_, ?_, ?_⟩
          · rw [hlen']
            rfl
          · rw [countEnter]
            omega
          · rw [hstop', hstop1]
    | set_period q =>
      have hnest1 : nestedFrom d rest = true := hnest
      rcases ih d { p with callback_period := q } s hnest1 hI hT hA hlen with
        ⟨p', s', hrun, hI', hT', hA', hlen', hidx', hstop'⟩
      exact ⟨p', s', hrun, hI', hT', hA', hlen', hidx', hstop'⟩

/-- Everything the Thread destructor does to a state whose stack
holds only the root frame, started and not yet stopped. -/
theorem destroy_step (wall cpu : Nat → Nat) (proc : Process) (s : ThreadState)
    (top : Timer) (hstk : s.stack = [top])
    (h1 : top.stop_cpu = 0) (h2 : top.start_cpu ≠ 0) :
    ∃ s', thread_destroy wall cpu proc s = some s' ∧
      s'.stack = [] ∧
      s'.finished = [] ∧
      s'.index = s.index ∧
      s'.ticks = s.ticks + 1 ∧
      s'.delivered = s.completed ++
        [{ top with stop_wall := wall s.ticks, stop_cpu := cpu s.ticks }] ∧
      s'.completed = s'.delivered ∧
      s'.allFrames = s'.delivered ∧
      s'.stopCount = s.stopCount + 1 ∧
      (InvList s.allFrames s.index → InvList s'.allFrames s'.index) ∧
      (StartInv wall cpu s.allFrames s.ticks →
        StartInv wall cpu s'.allFrames s'.ticks) ∧
      (StopInv wall cpu s.completed s.ticks →
        StopInv wall cpu s'.completed s'.ticks) := by
  rcases exit_step wall cpu proc s top [] hstk h1 h2 with
    ⟨s1, heq, hstk1, hidx1, hticks1, hstop1, hcomp1, hIp, hAp, hSp, hStp⟩
  set s2 : ThreadState :=
    { s1 with finished := [],
              events := s1.events ++ [CallbackEvent.thread_stop s1.finished] }
    with hs2
  have hdes : thread_destroy wall cpu proc s = some s2 := by
    rw [thread_destroy, heq, Option.some_bind, if_pos hstk1]
  have hdel2 : s2.delivered = s1.completed := by
    show (ThreadState.deliveredBatches s2).flatten = _
    rw [hs2]
    show (List.filterMap _ (s1.events ++ [CallbackEvent.thread_stop s1.finished])).flatten = _
    rw [List.filterMap_append, List.flatten_append]
    simp [ThreadState.completed, ThreadState.delivered, ThreadState.deliveredBatches]
  have hcomp2 : s2.completed = s2.delivered := by
    rw [ThreadState.completed]
    show s2.delivered ++ [] = s2.delivered
    rw [List.append_nil]
  have hAF2 : s2.allFrames = s2.delivered := by
    rw [ThreadState.allFrames, hcomp2]
    show s2.delivered ++ s1.stack = s2.delivered
    rw [hstk1, List.append_nil]
  have hAF1 : s1.allFrames = s1.completed := by
    rw [ThreadState.allFrames, hstk1, List.append_nil]
  have hAFeq : s2.allFrames = s1.allFrames := by
    rw [hAF2, hdel2, hAF1]
  refine ⟨s2, hdes, ?_, rfl, hidx1, hticks1, ?_, hcomp2, hAF2, ?_, ?_, ?_, ?_⟩
  · rw [hs2]
    show s1.stack = []
    exact hstk1
  · rw [hdel2, hcomp1]
  · show (List.filter _ (s1.events ++ [CallbackEvent.thread_stop s1.finished])).length =
      s.stopCount + 1
    rw [List.filter_append, List.length_append, ← hstop1]
    rfl
  · intro hI
    rw [hAFeq]
    show InvList s1.allFrames s1.index
    exact hIp hI
  · intro hS
    rw [hAFeq]
    show StartInv wall cpu s1.allFrames s2.ticks
    exact hSp hS
  · intro hS
    rw [hcomp2, hdel2]
    show StopInv wall cpu s1.completed s2.ticks
    exact hStp hS

/-- The index multiset of a collection satisfying the tree invariant
is exactly the range of the counter. -/
theorem invList_perm_range {l : List Timer} {n : Nat} (h : InvList l n) :
    List.Perm (l.map Timer.index) (List.range n) := by
  rw [List.perm_iff_count]
  intro a
  by_cases ha : a < n
  · rcases h.idx_complete a ha with ⟨t, ht, hti⟩
    rw [List.count_eq_one_of_mem h.idx_nodup (hti ▸ List.mem_map_of_mem Timer.index ht),
      List.count_eq_one_of_mem (List.nodup_range n) (List.mem_range.mpr ha)]
  · have hm1 : a ∉ l.map Timer.index := by
      intro hmem
      rcases List.mem_map.mp hmem with ⟨t, ht, hti⟩
      have := h.idx_lt t ht
      omega
    have hm2 : a ∉ List.range n := by
      intro hmem
      rw [List.mem_range] at hmem
      omega
    rw [List.count_eq_zero_of_not_mem hm1, List.count_eq_zero_of_not_mem hm2]

theorem isChildOf_lt {l : List Timer} {n p j : Nat} (h : InvList l n)
    (hc : isChildOf l p j = true) : j < n := by
  rcases isChildOf_eq_true.mp hc with ⟨t, hl, hj0, hcp⟩
  rcases lookupFrame_mem hl with ⟨hmem, hidx⟩
  have := h.idx_lt t hmem
  omega

/-- A balanced, properly nested run of a whole thread lifetime:
construction, the client operations, then destruction.  It completes,
delivers all frames, fires the stop hook exactly once, and the final
delivered collection satisfies the tree and timestamp invariants with
a dense index range. -/
theorem runThread_good (wall cpu : Nat → Nat) (p : Process) (ops : List Op)
    (hcpu : ∀ k, 0 < cpu k) (hnest : nestedFrom 0 ops = true)
    (hbal : depthAfter 0 ops = 0) :
    ∃ p' s', runThread wall cpu p ops = some (p', s') ∧
      s'.delivered = s'.allFrames ∧
      s'.index = countEnter ops + 1 ∧
      s'.stopCount = 1 ∧
      InvList s'.allFrames s'.index ∧
      StartInv wall cpu s'.allFrames s'.ticks ∧
      StopInv wall cpu s'.delivered s'.ticks ∧
      List.Perm (s'.delivered.map Timer.index) (List.range (countEnter ops + 1)) := by
  rcases runOps_good wall cpu hcpu ops 0 p (createdState wall cpu) hnest
    (createdState_invList wall cpu) (createdState_timeInv wall cpu)
    (createdState_activeOk wall cpu hcpu) rfl with
    ⟨p1, s1, hrun, hI1, hT1, hA1, hlen1, hidx1, hstop1⟩
  rw [hbal] at hlen1
  rcases hstk : s1.stack with _ | ⟨t, r⟩
  · rw [hstk] at hlen1
    exact absurd hlen1 (by simp)
  · have hr : r = [] := by
      rw [hstk] at hlen1
      simp at hlen1
      exact hlen1
    subst hr
    rcases hA1 t (by rw [hstk]; exact List.mem_cons_self _ _) with ⟨hsc, hstp⟩
    rcases destroy_step wall cpu p1 s1 t hstk hstp hsc with
      ⟨sF, hdes, hstkF, hfinF, hidxF, hticksF, hdelF, hcompF, hAFF, hstopF,
        hIpF, hSpF, hStpF⟩
    have hrt : runThread wall cpu p ops = some (p1, sF) := by
      rw [runThread, thread_create_eq, Option.some_bind, hrun, Option.some_bind, hdes]
      rfl
    have hIF : InvList sF.allFrames sF.index := hIpF hI1
    have hidxgoal : sF.index = countEnter ops + 1 := by
      rw [hidxF, hidx1]
      show 1 + countEnter ops = countEnter ops + 1
      omega
    have hstopgoal : sF.stopCount = 1 := by
      rw [hstopF, hstop1]
      rfl
    have hperm : List.Perm (sF.delivered.map Timer.index)
        (List.range (countEnter ops + 1)) := by
      have := invList_perm_range hIF
      rw [hAFF, hidxgoal] at this
      exact this
    have hstopinv : StopInv wall cpu sF.delivered sF.ticks := by
      have := hStpF hT1.2
      rw [hcompF] at this
      exact this
    exact ⟨p1, sF, hrt, hAFF.symm, hidxgoal, hstopgoal, hIF, hSpF hT1.1,
      hstopinv, hperm⟩

/-! ## Claim C1: no frame is ever lost, stop hook fires exactly once -/

/-- C1: for every balanced, properly nested sequence of client
enter/exit pairs under any policy (any callback_period, changeable at
any time), the frames delivered through the thread_in_situ batches
together with the frames delivered at teardown through thread_stop are
exactly the frames entered on the thread (one synthetic root plus one
per client enter), each exactly once — their indices are a permutation
of the dense range; and the thread_stop hook fires exactly once. -/
theorem claim_C1 (wall cpu : Nat → Nat) (p : Process) (ops : List Op)
    (hcpu : ∀ k, 0 < cpu k) (hnest : nestedFrom 0 ops = true)
    (hbal : depthAfter 0 ops = 0) :
    ∃ p' s', runThread wall cpu p ops = some (p', s') ∧
      List.Perm (s'.delivered.map Timer.index) (List.range (countEnter ops + 1)) ∧
      (s'.delivered.map Timer.index).Nodup ∧
      s'.stopCount = 1 := by
  rcases runThread_good wall cpu p ops hcpu hnest hbal with
    ⟨p', s', hrt, hdel, hidx, hstop, hI, hS, hSt, hperm⟩
  refine ⟨p', s', hrt, hperm, ?_, hstop⟩
  rw [hdel]
  exact hI.idx_nodup

/-- Witness for C1: the spec scenario of section 8 run under the
Periodic policy with threshold 2. -/
theorem claim_C1_witness :
    ∃ p' s', runThread (fun k => k + 1) (fun k => k + 1) ⟨true, 2⟩
        [Op.enter "f1", Op.enter "f2", Op.exitScope, Op.exitScope] = some (p', s') ∧
      List.Perm (s'.delivered.map Timer.index)
        (List.range (countEnter [Op.enter "f1", Op.enter "f2", Op.exitScope,
          Op.exitScope] + 1)) ∧
      (s'.delivered.map Timer.index).Nodup ∧
      s'.stopCount = 1 :=
  claim_C1 (fun k => k + 1) (fun k => k + 1) ⟨true, 2⟩
    [Op.enter "f1", Op.enter "f2", Op.exitScope, Op.exitScope]
    (fun k => Nat.succ_pos k) (by decide) (by decide)

/-! ## Claim C3: tree well-formedness -/

/-- C3: after any properly nested sequence of client enter/exit
operations, every non-root frame has caller_index strictly below its
own index, and for every frame the walk from its youngest_child_index
along prev_index visits exactly its children (the frames whose
caller_index equals its index, the self-referential root sentinel
excepted), each exactly once, and the last visited child has
prev_index 0. -/
theorem claim_C3 (wall cpu : Nat → Nat) (p : Process) (ops : List Op)
    (hcpu : ∀ k, 0 < cpu k) (hnest : nestedFrom 0 ops = true) :
    ∃ p' s', (thread_create wall cpu).bind
        (fun s0 => runOps wall cpu ops (p, s0)) = some (p', s') ∧
      ∀ t ∈ s'.allFrames,
        (t.index ≠ 0 → t.caller_index < t.index) ∧
        (∀ j, j ∈ chainTo s'.allFrames s'.index t.youngest_child_index ↔
          isChildOf s'.allFrames t.index j = true) ∧
        (chainTo s'.allFrames s'.index t.youngest_child_index).Nodup ∧
        (∀ j, (chainTo s'.allFrames s'.index t.youngest_child_index).getLast? =
            some j → prevOf s'.allFrames j = 0) := by
  rcases runOps_good wall cpu hcpu ops 0 p (createdState wall cpu) hnest
    (createdState_invList wall cpu) (createdState_timeInv wall cpu)
    (createdState_activeOk wall cpu hcpu) rfl with
    ⟨p1, s1, hrun, hI1, hT1, hA1, hlen1, hidx1, hstop1⟩
  have hcomb : (thread_create wall cpu).bind
      (fun s0 => runOps wall cpu ops (p, s0)) = some (p1, s1) := by
    rw [thread_create_eq, Option.some_bind, hrun]
  refine ⟨p1, s1, hcomb, ?_⟩
  intro t ht
  refine ⟨hI1.caller_lt t ht, ?_, ?_, ?_⟩
  · intro j
    rw [hI1.chains t ht, mem_childrenDesc]
    constructor
    · rintro ⟨_, hc⟩
      exact hc
    · intro hc
      exact ⟨isChildOf_lt hI1 hc, hc⟩
  · rw [hI1.chains t ht]
    exact childrenDesc_nodup _ _ _
  · intro j hj
    exact chainTo_getLast_prev hI1.prevDec t.youngest_child_index s1.index
      (Nat.le_of_lt (hI1.young_lt t ht)) j hj

/-- Witness for C3: two nested scopes plus a sibling. -/
theorem claim_C3_witness :
    ∃ p' s', (thread_create (fun k => k + 1) (fun k => k + 1)).bind
        (fun s0 => runOps (fun k => k + 1) (fun k => k + 1)
          [Op.enter "f1", Op.enter "f2", Op.exitScope, Op.enter "f3", Op.exitScope]
          (⟨true, 0⟩, s0)) = some (p', s') ∧
      ∀ t ∈ s'.allFrames,
        (t.index ≠ 0 → t.caller_index < t.index) ∧
        (∀ j, j ∈ chainTo s'.allFrames s'.index t.youngest_child_index ↔
          isChildOf s'.allFrames t.index j = true) ∧
        (chainTo s'.allFrames s'.index t.youngest_child_index).Nodup ∧
        (∀ j, (chainTo s'.allFrames s'.index t.youngest_child_index).getLast? =
            some j → prevOf s'.allFrames j = 0) :=
  claim_C3 (fun k => k + 1) (fun k => k + 1) ⟨true, 0⟩
    [Op.enter "f1", Op.enter "f2", Op.exitScope, Op.enter "f3", Op.exitScope]
    (fun k => Nat.succ_pos k) (by decide)

/-! ## Claim C4: dense indices, start order and stop order -/

/-- C4: for a balanced run, the drained frames carry exactly the
indices 0 to n-1; under monotone clocks the start timestamps are
non-decreasing in index order, under strictly monotone clocks they are
strictly increasing; and the stop timestamps along the completion
(delivery) order are likewise increasing. -/
theorem claim_C4 (wall cpu : Nat → Nat) (p : Process) (ops : List Op)
    (hcpu : ∀ k, 0 < cpu k) (hnest : nestedFrom 0 ops = true)
    (hbal : depthAfter 0 ops = 0) :
    ∃ p' s', runThread wall cpu p ops = some (p', s') ∧
      List.Perm (s'.delivered.map Timer.index) (List.range (countEnter ops + 1)) ∧
      (Monotone wall → Monotone cpu →
        (∀ t1 ∈ s'.delivered, ∀ t2 ∈ s'.delivered, t1.index < t2.index →
          t1.start_wall ≤ t2.start_wall ∧ t1.start_cpu ≤ t2.start_cpu) ∧
        List.Pairwise (fun a b => a.stop_wall ≤ b.stop_wall ∧
          a.stop_cpu ≤ b.stop_cpu) s'.delivered) ∧
      (StrictMono wall → StrictMono cpu →
        (∀ t1 ∈ s'.delivered, ∀ t2 ∈ s'.delivered, t1.index < t2.index →
          t1.start_wall < t2.start_wall ∧ t1.start_cpu < t2.start_cpu) ∧
        List.Pairwise (fun a b => a.stop_wall < b.stop_wall ∧
          a.stop_cpu < b.stop_cpu) s'.delivered) := by
  rcases runThread_good wall cpu p ops hcpu hnest hbal with
    ⟨p', s', hrt, hdel, hidx, hstop, hI, hS, hSt, hperm⟩
  refine ⟨p', s', hrt, hperm, ?_, ?_⟩
  · intro hmw hmc
    constructor
    · intro t1 h1 t2 h2 hlt
      rw [hdel] at h1 h2
      rcases hS.pairs t1 h1 t2 h2 hlt with ⟨k1, k2, hk, hb, hc1, hc2⟩
      rw [hc1.1, hc1.2, hc2.1, hc2.2]
      exact ⟨hmw (Nat.le_of_lt hk), hmc (Nat.le_of_lt hk)⟩
    · refine hSt.pairs.imp ?_
      rintro a b ⟨k1, k2, hk, hb, hc1, hc2⟩
      rw [hc1.1, hc1.2, hc2.1, hc2.2]
      exact ⟨hmw (Nat.le_of_lt hk), hmc (Nat.le_of_lt hk)⟩
  · intro hmw hmc
    constructor
    · intro t1 h1 t2 h2 hlt
      rw [hdel] at h1 h2
      rcases hS.pairs t1 h1 t2 h2 hlt with ⟨k1, k2, hk, hb, hc1, hc2⟩
      rw [hc1.1, hc1.2, hc2.1, hc2.2]
      exact ⟨hmw hk, hmc hk⟩
    · refine hSt.pairs.imp ?_
      rintro a b ⟨k1, k2, hk, hb, hc1, hc2⟩
      rw [hc1.1, hc1.2, hc2.1, hc2.2]
      exact ⟨hmw hk, hmc hk⟩

/-- Witness for C4 at a concrete balanced run with strictly monotone
clocks. -/
theorem claim_C4_witness :
    ∃ p' s', runThread (fun k => 2 * k + 3) (fun k => k + 1) ⟨true, 1⟩
        [Op.enter "f", Op.exitScope] = some (p', s') ∧
      List.Perm (s'.delivered.map Timer.index)
        (List.range (countEnter [Op.enter "f", Op.exitScope] + 1)) ∧
      (Monotone (fun k => 2 * k + 3) → Monotone (fun k => k + 1) →
        (∀ t1 ∈ s'.delivered, ∀ t2 ∈ s'.delivered, t1.index < t2.index →
          t1.start_wall ≤ t2.start_wall ∧ t1.start_cpu ≤ t2.start_cpu) ∧
        List.Pairwise (fun a b => a.stop_wall ≤ b.stop_wall ∧
          a.stop_cpu ≤ b.stop_cpu) s'.delivered) ∧
      (StrictMono (fun k => 2 * k + 3) → StrictMono (fun k => k + 1) →
        (∀ t1 ∈ s'.delivered, ∀ t2 ∈ s'.delivered, t1.index < t2.index →
          t1.start_wall < t2.start_wall ∧ t1.start_cpu < t2.start_cpu) ∧
        List.Pairwise (fun a b => a.stop_wall < b.stop_wall ∧
          a.stop_cpu < b.stop_cpu) s'.delivered) :=
  claim_C4 (fun k => 2 * k + 3) (fun k => k + 1) ⟨true, 1⟩
    [Op.enter "f", Op.exitScope] (fun k => Nat.succ_pos k) (by decide) (by decide)

/-! ## Claim C9: the timer state machine and its assertions -/

/-- C9: along every properly nested, balanced thread lifetime every
frame is started exactly once before being stopped exactly once, so no
assertion in start_timers or stop_timers fires and the run returns a
value (first conjunct); starting an already started timer trips the
timer-already-started assertion (second conjunct), and stopping a
never-started timer trips the timer-never-started assertion (third
conjunct). -/
theorem claim_C9 :
    (∀ (wall cpu : Nat → Nat) (p : Process) (ops : List Op),
      (∀ k, 0 < cpu k) → nestedFrom 0 ops = true → depthAfter 0 ops = 0 →
      ∃ r, runThread wall cpu p ops = some r) ∧
    Timer.start_timers (fun k => k) (fun k => k + 1) 0
      ⟨"x", 1, 0, 0, 3, 5, 0, 0, 0⟩ = none ∧
    Timer.stop_timers (fun k => k) (fun k => k + 1) 0 (Timer.fresh "y" 1 0 0) = none := by
  refine ⟨?_, by decide, by decide⟩
  intro wall cpu p ops hcpu hnest hbal
  rcases runThread_good wall cpu p ops hcpu hnest hbal with ⟨p', s', hrt, _⟩
  exact ⟨(p', s'), hrt⟩

/-- Witness for C9 at a concrete nested run. -/
theorem claim_C9_witness :
    ∃ r, runThread (fun k => k + 1) (fun k => k + 1) ⟨true, 0⟩
      [Op.enter "a", Op.enter "b", Op.exitScope, Op.exitScope] = some r :=
  claim_C9.1 (fun k => k + 1) (fun k => k + 1) ⟨true, 0⟩
    [Op.enter "a", Op.enter "b", Op.exitScope, Op.exitScope]
    (fun k => Nat.succ_pos k) (by decide) (by decide)

/-! ## Claim C10: guards capture the enablement flag at construction -/

/-- A guard-structured client program: Process::set_enabled calls
interleaved with lexical scopes; each scope is one ScopeTimer guard
whose body is again such a program, so enter/exit pairing is given by
construction, exactly as RAII gives it in the source. -/
inductive Cmd where
  | toggle : Bool → Cmd
  | scope : String → List Cmd → Cmd

mutual

/-- Run one command: a toggle mutates the live Process enablement
flag; a scope constructs a ScopeTimer guard (capturing the flag), runs
the body, then destroys the guard (consulting the captured flag). -/
def execCmd (wall cpu : Nat → Nat) : Cmd → Process × ThreadState →
    Option (Process × ThreadState)
  | Cmd.toggle b, (p, s) => some ({ p with enabled := b }, s)
  | Cmd.scope name body, (p, s) =>
    (scope_timer_create wall cpu p name s).bind fun gs =>
    (execCmds wall cpu body (p, gs.2)).bind fun ps =>
    (scope_timer_destroy wall cpu ps.1 gs.1 ps.2).map fun s2 => (ps.1, s2)

/-- Run a list of commands in order. -/
def execCmds (wall cpu : Nat → Nat) : List Cmd → Process × ThreadState →
    Option (Process × ThreadState)
  | [], ps => some ps
  | c :: rest, ps => (execCmd wall cpu c ps).bind (execCmds wall cpu rest)

end

/-- Effect of one enter on any state, empty stack included. -/
theorem enter_basic (wall cpu : Nat → Nat) (name : String) (s : ThreadState)
    (hcpu : 0 < cpu s.ticks) :
    ∃ s1, enter_stack_frame wall cpu name s = some s1 ∧
      s1.stack.length = s.stack.length + 1 ∧
      s1.index = s.index + 1 ∧
      s1.completed = s.completed ∧
      (activeOk s → activeOk s1) := by
  rcases hstk : s.stack with _ | ⟨caller, rest⟩
  · refine ⟨_, enter_eq_nil wall cpu name s hstk, ?_, rfl, rfl, ?_⟩
    · rfl
    · intro hA t ht
      rcases List.mem_singleton.mp ht with rfl
      refine ⟨?_, rfl⟩
      show cpu s.ticks ≠ 0
      omega
  · rcases enter_step wall cpu name s caller rest hstk hcpu with
      ⟨s1, heq, hlen1, _, _, hidx1, _, hcomp1, _, hAp, _⟩
    rw [hstk] at hlen1
    exact ⟨s1, heq, hlen1, hidx1, hcomp1, hAp⟩

mutual

theorem execCmd_ok (wall cpu : Nat → Nat) (hcpu : ∀ k, 0 < cpu k) (c : Cmd)
    (p : Process) (s : ThreadState) (hA : activeOk s) :
    ∃ p' s', execCmd wall cpu c (p, s) = some (p', s') ∧ activeOk s' ∧
      s'.stack.length = s.stack.length ∧
      ∃ m, s'.index = s.index + m ∧
        s'.completed.length = s.completed.length + m := by
  cases c with
  | toggle b =>
    exact ⟨{ p with enabled := b }, s, rfl, hA, rfl, 0, by omega, by omega⟩
  | scope name body =>
    by_cases hen : p.enabled
    · rcases enter_basic wall cpu name s (hcpu s.ticks) with
        ⟨s1, he, hlen1, hidx1, hcomp1, hAp⟩
      rcases execCmds_ok wall cpu hcpu body p s1 (hAp hA) with
        ⟨p2, s2, hrun, hA2, hlen2, m2, hidx2, hcomp2⟩
      rcases hstk2 : s2.stack with _ | ⟨top, rest2⟩
      · exfalso
        rw [hstk2] at hlen2
        simp at hlen2
        omega
      · rcases hA2 top (by rw [hstk2]; exact List.mem_cons_self _ _) with ⟨hsc, hst⟩
        rcases exit_step wall cpu p2 s2 top rest2 hstk2 hst hsc with
          ⟨s3, hex, hstk3, hidx3, _, _, hcomp3, _, hAp3, _, _⟩
        refine ⟨p2, s3, ?_, hAp3 hA2, ?_, m2 + 1, ?_, ?_⟩
        · rw [execCmd]
          rw [scope_timer_create, if_pos hen, he]
          rw [Option.map_some', Option.some_bind, hrun, Option.some_bind]
          rw [scope_timer_destroy]
          show (if true = true then exit_stack_frame wall cpu p2 s2 else some s2).map
            (fun s4 => (p2, s4)) = _
          rw [if_pos rfl, hex]
          rfl
        · rw [hstk3]
          rw [hstk2] at hlen2
          simp at hlen2
          omega
        · omega
        · have hcl1 : s1.completed.length = s.completed.length := by rw [hcomp1]
          rw [hcomp3, List.length_append]
          simp
          omega
    · rcases execCmds_ok wall cpu hcpu body p s hA with
        ⟨p2, s2, hrun, hA2, hlen2, m2, hidx2, hcomp2⟩
      refine ⟨p2, s2, ?_, hA2, hlen2, m2, hidx2, hcomp2⟩
      rw [execCmd]
      rw [scope_timer_create, if_neg hen]
      rw [Option.some_bind, hrun, Option.some_bind]
      rw [scope_timer_destroy]
      show (if false = true then exit_stack_frame wall cpu p2 s2 else some s2).map
        (fun s4 => (p2, s4)) = _
      rw [if_neg Bool.false_ne_true]
      rfl

theorem execCmds_ok (wall cpu : Nat → Nat) (hcpu : ∀ k, 0 < cpu k)
    (cmds : List Cmd) (p : Process) (s : ThreadState) (hA : activeOk s) :
    ∃ p' s', execCmds wall cpu cmds (p, s) = some (p', s') ∧ activeOk s' ∧
      s'.stack.length = s.stack.length ∧
      ∃ m, s'.index = s.index + m ∧
        s'.completed.length = s.completed.length + m := by
  cases cmds with
  | nil => exact ⟨p, s, rfl, hA, rfl, 0, by omega, by omega⟩
  | cons c rest =>
    rcases execCmd_ok wall cpu hcpu c p s hA with
      ⟨p1, s1, hc, hA1, hlen1, m1, hidx1, hcomp1⟩
    rcases execCmds_ok wall cpu hcpu rest p1 s1 hA1 with
      ⟨p', s', hrest, hA', hlen', m', hidx', hcomp'⟩
    refine ⟨p', s', ?_, hA', by omega, m1 + m', by omega, by omega⟩
    rw [execCmds, hc, Option.some_bind]
    exact hrest

end

/-- C10: a ScopeTimer guard captures the Process enablement flag at
construction and its destructor consults the captured copy, so under
arbitrary set_enabled toggling enter and exit stay exactly paired: any
guard-structured program runs to completion (the exit-more-than-enter
assertion cannot fire), restores the stack depth, and completes
exactly as many frames as it enters. -/
theorem claim_C10 (wall cpu : Nat → Nat) (hcpu : ∀ k, 0 < cpu k)
    (cmds : List Cmd) (p : Process) (s : ThreadState) (hA : activeOk s) :
    ∃ p' s', execCmds wall cpu cmds (p, s) = some (p', s') ∧ activeOk s' ∧
      s'.stack.length = s.stack.length ∧
      ∃ m, s'.index = s.index + m ∧
        s'.completed.length = s.completed.length + m :=
  execCmds_ok wall cpu hcpu cmds p s hA

/-- Witness for C10: the flag is toggled off inside an enabled guard;
the guard still performs its exit, and the inner scope (constructed
while disabled) never does. -/
theorem claim_C10_witness :
    ∃ p' s', execCmds (fun k => k + 1) (fun k => k + 1)
        [Cmd.scope "f" [Cmd.toggle false, Cmd.scope "g" []]]
        (⟨true, 0⟩, ThreadState.init) = some (p', s') ∧ activeOk s' ∧
      s'.stack.length = ThreadState.init.stack.length ∧
      ∃ m, s'.index = ThreadState.init.index + m ∧
        s'.completed.length = ThreadState.init.completed.length + m :=
  claim_C10 (fun k => k + 1) (fun k => k + 1) (fun k => Nat.succ_pos k)
    [Cmd.scope "f" [Cmd.toggle false, Cmd.scope "g" []]]
    ⟨true, 0⟩ ThreadState.init
    (fun t ht => absurd ht (List.not_mem_nil t))

end scope_timer
